import Mathlib

/-!
Shallow embedding of the ExamSeatPlanner seat-assignment engine.

The Go sources carry two revisions of the seating service:
* internal/seating/service.go (revision A): GenerateSeatingPlan with the
  algorithm selectors "matrix", "parallel", "random", "snake", roster
  gathering with cross-room deduplication and truncation to room capacity,
  and the strategies generateMatrixSeating, generateParallelSeating,
  generateRandomSeating (shuffle based) and generateSnakeSeating
  (interleave plus boustrophedon fill).
* unnamed/part_008 (revision B): the selectors "parallel", "simple",
  "separated"; generateRandomSeating there is the round-robin serpentine
  fill and generateSnakeSeating there is the adjacency-avoiding fill.

Machine integers are modelled as Nat: row and column counts, capacities
and indices are non-negative in every reachable call, and no arithmetic
here can overflow 64-bit in realistic inputs, so wrap-around is not
modelled.  Mutable Go slices become pure lists; a Go array written by
index becomes a fold of List.set over an initial list of zero-value
seats, so that a write sequence with repeated indices keeps the
last-write-wins semantics of the source.  Go map iteration order (used
by the adjacency-avoiding strategy of revision B when it collects the
candidate departments) is abstracted by an explicit selection function
passed as a parameter; every concrete iteration order the runtime could
give corresponds to one admissible selection function.  The repository
layer (MongoDB) is not part of the engine: the plan assembler is
modelled as a pure function of the already-fetched rooms and their
student lists, and the shuffle used by the revision-A "random" strategy
is a function parameter.
-/

/-- Mirror of StudentWithGroup (service.go). -/
structure Student where
  id : String
  name : String
  dept : String
  batch : String
deriving DecidableEq

def student0 : Student := ⟨"", "", "", ""⟩

/-- Mirror of Seat.  seat0 is the Go zero value of the struct: note that
its isEmpty flag is false even though no student occupies it. -/
structure Seat where
  row : Nat
  column : Nat
  studentId : String
  isEmpty : Bool
deriving DecidableEq

def seat0 : Seat := ⟨0, 0, "", false⟩

/-- Mirror of Room restricted to the fields the engine reads. -/
structure Room where
  roomId : String
  rows : Nat
  columns : Nat
  capacity : Nat
deriving DecidableEq

/-- Mirror of SeatingPlanRoom restricted to the fields the engine
computes (invigilator data is opaque pass-through and omitted). -/
structure PlanRoom where
  roomId : String
  capacity : Nat
  rows : Nat
  columns : Nat
  seats : List Seat
deriving DecidableEq

/-- One step of building deptMap plus the first-seen depts slice: the
Go pattern "if _, ok := deptMap[s.Department]; !ok { depts = append }
deptMap[s.Department] = append(deptMap[s.Department], s)" becomes an
insertion-ordered association list. -/
def groupUpdate : List (String × List Student) → Student → List (String × List Student)
  | [], s => [(s.dept, [s])]
  | (d, q) :: rest, s =>
    if d = s.dept then (d, q ++ [s]) :: rest else (d, q) :: groupUpdate rest s

/-- deptMap together with the first-seen department order: the keys of
the association list are in first-seen order. -/
def groupByDept (students : List Student) : List (String × List Student) :=
  students.foldl groupUpdate []

def deptsOf (students : List Student) : List String :=
  (groupByDept students).map Prod.fst

/-- deptMap[d] with the Go default of an absent key (empty slice). -/
def deptQueue (m : List (String × List Student)) (d : String) : List Student :=
  ((m.find? (fun p => p.1 == d)).map Prod.snd).getD []

/-- deptMap[d] = deptMap[d][1:]. -/
def popDept : List (String × List Student) → String → List (String × List Student)
  | [], _ => []
  | (k, q) :: rest, d =>
    if k = d then (k, q.drop 1) :: rest else (k, q) :: popDept rest d

/-- A Go array of seats built by indexed writes: start from the
zero-value array and apply the writes in program order (last write to an
index wins, exactly as in the source). -/
def mkGrid (n : Nat) (ws : List (Nat × Seat)) : List Seat :=
  ws.foldl (fun g kv => g.set kv.1 kv.2) (List.replicate n seat0)

/-- colStudentIdx[d] with Go map default 0. -/
def getCount (counts : List (String × Nat)) (d : String) : Nat :=
  ((counts.find? (fun p => p.1 == d)).map Prod.snd).getD 0

/-- colStudentIdx[d] = c. -/
def setCount : List (String × Nat) → String → Nat → List (String × Nat)
  | [], d, c => [(d, c)]
  | (k, n) :: rest, d, c =>
    if k = d then (k, c) :: rest else (k, n) :: setCount rest d c

/-- Inner loop of generateParallelSeating: one grid column j, visiting
the row indices in order, drawing from queue q starting at cursor cnt. -/
def fillColumn (q : List Student) (cols j : Nat) :
    List Nat → Nat → List (Nat × Seat) × Nat
  | [], cnt => ([], cnt)
  | i :: is, cnt =>
    if cnt < q.length then
      let s := q.getD cnt student0
      let r := fillColumn q cols j is (cnt + 1)
      ((i * cols + j, ⟨i + 1, j + 1, s.id, false⟩) :: r.1, r.2)
    else
      let r := fillColumn q cols j is cnt
      ((i * cols + j, ⟨i + 1, j + 1, "", true⟩) :: r.1, r.2)

/-- Outer loop of generateParallelSeating over the grid columns,
threading the per-department cursor map colStudentIdx. -/
def fillColumns (m : List (String × List Student)) (depts : List String) (rows cols : Nat) :
    List Nat → List (String × Nat) → List (Nat × Seat)
  | [], _ => []
  | j :: js, counts =>
    let dept := depts.getD (j % depts.length) ""
    let q := deptQueue m dept
    let r := fillColumn q cols j (List.range rows) (getCount counts dept)
    r.1 ++ fillColumns m depts rows cols js (setCount counts dept r.2)

/-- generateParallelSeating (identical in both revisions up to debug
prints).  The Go expression depts[i % len(depts)] panics with an integer
division by zero when the roster is empty and the room has at least one
column; that panic is modelled as the value none. -/
def parallelSeating (room : Room) (students : List Student) : Option (List Seat) :=
  let m := groupByDept students
  let depts := m.map Prod.fst
  if room.columns ≠ 0 ∧ depts.isEmpty then none
  else some (mkGrid (room.rows * room.columns)
    (fillColumns m depts room.rows room.columns (List.range room.columns) []))

def parallelGrid (room : Room) (students : List Student) : List Seat :=
  (parallelSeating room students).getD []

/-- Seat indices in the boustrophedon visiting order of revision B
generateRandomSeating: even rows left to right, odd rows right to left;
the written array index is always i*cols + j. -/
def snakeOrder (rows cols : Nat) : List Nat :=
  (List.range rows).flatMap (fun i =>
    if i % 2 = 0 then (List.range cols).map (fun j => i * cols + j)
    else ((List.range cols).reverse).map (fun j => i * cols + j))

/-- The round-robin search of revision B generateRandomSeating: try at
most len(depts) consecutive positions from the cursor, returning the
offset of the first department with a non-empty queue. -/
def rrFind (m : List (String × List Student)) (depts : List String) (deptIdx : Nat) :
    Option Nat :=
  (List.range depts.length).find? (fun t =>
    !(deptQueue m (depts.getD ((deptIdx + t) % depts.length) "")).isEmpty)

/-- Fill loop of revision B generateRandomSeating along the serpentine
order, threading deptMap, the round-robin cursor and the count of
students placed so far. -/
def rrFillGo (students : List Student) (depts : List String) (cols : Nat) :
    List Nat → List (String × List Student) → Nat → Nat → List (Nat × Seat)
  | [], _, _, _ => []
  | k :: ks, m, deptIdx, placed =>
    let i := k / cols
    let j := k % cols
    if placed < students.length then
      match rrFind m depts deptIdx with
      | some t =>
        let d := depts.getD ((deptIdx + t) % depts.length) ""
        let s := (deptQueue m d).headD student0
        (k, ⟨i + 1, j + 1, s.id, false⟩) ::
          rrFillGo students depts cols ks (popDept m d) (deptIdx + t + 1) (placed + 1)
      | none =>
        (k, ⟨i + 1, j + 1, "", true⟩) ::
          rrFillGo students depts cols ks m (deptIdx + depts.length) placed
    else
      (k, ⟨i + 1, j + 1, "", true⟩) :: rrFillGo students depts cols ks m deptIdx placed

/-- Revision B generateRandomSeating: classic serpentine traversal with
round-robin interleaving over the first-seen department list.  This is
the strategy the spec names Serpentine-Interleaved. -/
def randomSeatingB (room : Room) (students : List Student) : List Seat :=
  let m := groupByDept students
  mkGrid (room.rows * room.columns)
    (rrFillGo students (m.map Prod.fst) room.columns
      (snakeOrder room.rows room.columns) m 0 0)

/-- The studentDept helper map of revision B generateSnakeSeating,
built by iterating the roster, so a duplicated id keeps the last
department written. -/
def studentDept (students : List Student) (sid : String) : Option String :=
  ((students.reverse).find? (fun s => s.id == sid)).map (fun s => s.dept)

/-- Departments of the occupied vertically-above and horizontally-left
neighbours of seat index k, as collected by revision B
generateSnakeSeating from the partially built seats array. -/
def adjOf (students : List Student) (cols : Nat) (seats : List Seat) (k : Nat) :
    List String :=
  (if cols ≤ k then
    (let a := seats.getD (k - cols) seat0
     if a.studentId ≠ "" then (studentDept students a.studentId).toList else [])
   else []) ++
  (if k % cols ≠ 0 then
    (let a := seats.getD (k - 1) seat0
     if a.studentId ≠ "" then (studentDept students a.studentId).toList else [])
   else [])

/-- Departments with a non-empty queue that are not excluded by the
adjacency set, listed here in association-list order; the Go code
collects them while ranging over an unordered map, which is why the
strategy takes a selection function for the pick below. -/
def eligibleDepts (m : List (String × List Student)) (adj : List String) : List String :=
  (m.filter (fun p => !p.2.isEmpty && !(adj.contains p.1))).map Prod.fst

/-- One seat of revision B generateSnakeSeating.  choose abstracts the
Go map iteration order: the source picks candidates[0] of a list built
by ranging over deptMap, hence some element of the eligible set.  (When
choose returns a department with an empty queue, a case no admissible
iteration order produces, the seat is left empty to keep the function
total.) -/
def snakeStep (students : List Student) (choose : List String → String) (cols : Nat)
    (st : List Seat × List (String × List Student)) (k : Nat) :
    List Seat × List (String × List Student) :=
  let seats := st.1
  let m := st.2
  let i := k / cols
  let j := k % cols
  let adj := adjOf students cols seats k
  let elig := eligibleDepts m adj
  if elig.isEmpty then (seats ++ [⟨i + 1, j + 1, "", true⟩], m)
  else
    let d := choose elig
    match deptQueue m d with
    | [] => (seats ++ [⟨i + 1, j + 1, "", true⟩], m)
    | s :: _ => (seats ++ [⟨i + 1, j + 1, s.id, false⟩], popDept m d)

def snakeFillGo (students : List Student) (choose : List String → String) (cols : Nat) :
    List Nat → List Seat × List (String × List Student) →
    List Seat × List (String × List Student)
  | [], st => st
  | k :: ks, st => snakeFillGo students choose cols ks (snakeStep students choose cols st k)

/-- The full row-major fill of revision B generateSnakeSeating. -/
def snakeFill (room : Room) (students : List Student) (choose : List String → String) :
    List Seat × List (String × List Student) :=
  snakeFillGo students choose room.columns (List.range (room.rows * room.columns))
    ([], groupByDept students)

def snakeFillSeats (room : Room) (students : List Student)
    (choose : List String → String) : List Seat :=
  (snakeFill room students choose).1

def unassignedOf (m : List (String × List Student)) : Nat :=
  (m.map (fun p => p.2.length)).sum

/-- Revision B generateSnakeSeating: the adjacency-avoiding strategy.
It reports the number of unassigned students as an error when any
remain, and the seats otherwise. -/
def snakeSeatingB (room : Room) (students : List Student)
    (choose : List String → String) : Except Nat (List Seat) :=
  let r := snakeFill room students choose
  if 0 < unassignedOf r.2 then .error (unassignedOf r.2) else .ok r.1

/-- One pass of the interleaving loop shared by revision A
generateMatrixSeating and generateSnakeSeating: at round i take the
i-th member of each department in first-seen order, skipping students
already used. -/
def interleavePick (m : List (String × List Student)) (i : Nat)
    (st : List Student × List String) : List Student × List String :=
  m.foldl (fun acc p =>
    if i < p.2.length then
      let stu := p.2.getD i student0
      if acc.2.contains stu.id then acc else (acc.1 ++ [stu], acc.2 ++ [stu.id])
    else acc) st

def interleaveRounds (m : List (String × List Student)) :
    List Nat → List Student × List String → List Student × List String
  | [], st => st
  | i :: is, st => interleaveRounds m is (interleavePick m i st)

def maxQueueLen (m : List (String × List Student)) : Nat :=
  m.foldl (fun acc p => max acc p.2.length) 0

/-- The interleaved roster of revision A generateMatrixSeating and
generateSnakeSeating, including the trailing pass that appends the
students not yet used. -/
def interleaved (students : List Student) : List Student :=
  let m := groupByDept students
  let fst := interleaveRounds m (List.range (maxQueueLen m)) ([], [])
  (students.foldl (fun acc s =>
    if acc.2.contains s.id then acc else (acc.1 ++ [s], acc.2 ++ [s.id])) fst).1

/-- Row-major prefix fill with a list of students, the tail of the grid
marked empty: the common shape of revision A generateMatrixSeating and
generateRandomSeating, whose fill order is a plain prefix so the
trailing mark-empty loop is harmless there. -/
def prefixFillGrid (rows cols : Nat) (l : List Student) : List Seat :=
  (List.range (rows * cols)).map (fun k =>
    if k < l.length then ⟨k / cols + 1, k % cols + 1, (l.getD k student0).id, false⟩
    else ⟨k / cols + 1, k % cols + 1, "", true⟩)

/-- Revision A generateMatrixSeating. -/
def matrixSeating (room : Room) (students : List Student) : List Seat :=
  prefixFillGrid room.rows room.columns (interleaved students)

/-- Revision A generateRandomSeating: shuffle then row-major prefix
fill.  The shuffle (Go math/rand seeded from the wall clock) is a
parameter. -/
def randomSeatingA (shuffle : List Student → List Student) (room : Room)
    (students : List Student) : List Seat :=
  prefixFillGrid room.rows room.columns (shuffle students)

/-- One row of the revision A generateSnakeSeating fill: visits the
column indices js (already in left-to-right or right-to-left order) and
writes students while the cursor idx is within the interleaved list. -/
def snakeARow (il : List Student) (cols i : Nat) :
    List Nat → Nat → List (Nat × Seat) × Nat
  | [], idx => ([], idx)
  | j :: js, idx =>
    if idx < il.length then
      let r := snakeARow il cols i js (idx + 1)
      ((i * cols + j, ⟨i + 1, j + 1, (il.getD idx student0).id, false⟩) :: r.1, r.2)
    else ([], idx)

def snakeARows (il : List Student) (cols : Nat) :
    List Nat → Nat → List (Nat × Seat) × Nat
  | [], idx => ([], idx)
  | i :: is, idx =>
    let js := if i % 2 = 0 then List.range cols else (List.range cols).reverse
    let r := snakeARow il cols i js idx
    let r2 := snakeARows il cols is r.2
    (r.1 ++ r2.1, r2.2)

/-- Revision A generateSnakeSeating: interleave, snake-order fill, then
the mark-remaining-empty loop, which runs over the array indices from
the final student cursor to the end of the array and therefore does not
match the snake write pattern (see the C2 analysis). -/
def snakeSeatingA (room : Room) (students : List Student) : List Seat :=
  let il := interleaved students
  let n := room.rows * room.columns
  let r := snakeARows il room.columns (List.range room.rows) 0
  mkGrid n (r.1 ++ ((List.range n).drop r.2).map (fun k =>
    (k, (⟨k / room.columns + 1, k % room.columns + 1, "", true⟩ : Seat))))

/-- Error strings of revision A GenerateSeatingPlan. -/
def capacityMsg : String := "total students exceed total room capacity"

def invalidAlgMsg : String := "invalid algorithm specified"

/-- Stand-in for the Go runtime panic raised by
generateParallelSeating when the roster is empty (see
parallelSeating). -/
def panicMsg : String := "runtime error: integer divide by zero"

/-- The roster-gathering loop of revision A GenerateSeatingPlan: per
room, keep the students with a non-empty id not yet assigned to an
earlier room, truncate to the room capacity, then mark the retained
students as assigned. -/
def gatherGo : List String → List (Room × List Student) → List (List Student)
  | _, [] => []
  | assigned, (room, list) :: rest =>
    let roster := (list.filter (fun s => s.id != "" && !(assigned.contains s.id))).take
      room.capacity
    roster :: gatherGo (assigned ++ roster.map (fun s => s.id)) rest

def gatherRosters (rooms : List (Room × List Student)) : List (List Student) :=
  gatherGo [] rooms

/-- The all-empty grid revision A GenerateSeatingPlan builds itself for
a room whose roster is empty. -/
def emptyGrid (rows cols : Nat) : List Seat :=
  (List.range (rows * cols)).map (fun k => ⟨k / cols + 1, k % cols + 1, "", true⟩)

/-- The per-room dispatch of revision A GenerateSeatingPlan: the
algorithm switch runs only when the gathered roster is non-empty. -/
def roomSeats (shuffle : List Student → List Student) (alg : String) (room : Room)
    (roster : List Student) : Except String (List Seat) :=
  if roster.isEmpty then .ok (emptyGrid room.rows room.columns)
  else if alg = "matrix" then .ok (matrixSeating room roster)
  else if alg = "parallel" then
    match parallelSeating room roster with
    | some g => .ok g
    | none => .error panicMsg
  else if alg = "random" then .ok (randomSeatingA shuffle room roster)
  else if alg = "snake" then .ok (snakeSeatingA room roster)
  else .error invalidAlgMsg

/-- The plan-building loop of revision A GenerateSeatingPlan (the rooms
and their gathered rosters always have equal length at the call site). -/
def buildRooms (shuffle : List Student → List Student) (alg : String) :
    List (Room × List Student) → List (List Student) → Except String (List PlanRoom)
  | [], _ => .ok []
  | _ :: _, [] => .ok []
  | (room, _) :: rest, roster :: rrest =>
    match roomSeats shuffle alg room roster with
    | .error e => .error e
    | .ok seats =>
      match buildRooms shuffle alg rest rrest with
      | .error e => .error e
      | .ok prs => .ok (⟨room.roomId, room.capacity, room.rows, room.columns, seats⟩ :: prs)

/-- The core of revision A GenerateSeatingPlan, as a pure function of
the fetched rooms paired with their concatenated student lists: gather
rosters (dedup across rooms, truncate to capacity), total-capacity
check, then the per-room algorithm dispatch. -/
def assemblePlan (shuffle : List Student → List Student)
    (rooms : List (Room × List Student)) (alg : String) :
    Except String (List PlanRoom) :=
  let rosters := gatherRosters rooms
  let totalCapacity := (rooms.map (fun p => p.1.capacity)).sum
  let totalStudents := (rosters.map List.length).sum
  if totalCapacity < totalStudents then .error capacityMsg
  else buildRooms shuffle alg rooms rosters

def occupiedCount (g : List Seat) : Nat := g.countP (fun s => !s.isEmpty)

def idsOf (students : List Student) : List String := students.map (fun s => s.id)

/-- An admissible model of one Go map iteration order: the selection
always returns a member of the non-empty candidate list. -/
def goodChoose (choose : List String → String) : Prop :=
  ∀ l : List String, l ≠ [] → choose l ∈ l

def chooseHead (l : List String) : String := l.headD ""

def chooseLast (l : List String) : String := l.getLastD ""

def idShuffle (l : List Student) : List Student := l

/-! ### Facts about the department grouping -/

theorem groupUpdate_ne_nil (acc : List (String × List Student)) (s : Student) :
    groupUpdate acc s ≠ [] := by
  cases acc with
  | nil => simp [groupUpdate]
  | cons p rest =>
    obtain ⟨d, q⟩ := p
    by_cases h : d = s.dept <;> simp [groupUpdate, h]

theorem groupUpdate_sum (acc : List (String × List Student)) (s : Student) :
    ((groupUpdate acc s).map (fun p => p.2.length)).sum
      = ((acc.map (fun p => p.2.length)).sum) + 1 := by
  induction acc with
  | nil => simp [groupUpdate]
  | cons p rest ih =>
    obtain ⟨d, q⟩ := p
    by_cases h : d = s.dept
    · simp only [groupUpdate, if_pos h, List.map_cons, List.sum_cons, List.length_append,
        List.length_singleton]
      omega
    · simp only [groupUpdate, if_neg h, List.map_cons, List.sum_cons, ih]
      omega

theorem groupUpdate_mem (acc : List (String × List Student)) (s : Student)
    (d : String) (q : List Student) (x : Student)
    (hmem : (d, q) ∈ groupUpdate acc s) (hx : x ∈ q) :
    (∃ q0, (d, q0) ∈ acc ∧ x ∈ q0) ∨ (x = s ∧ d = s.dept) := by
  induction acc with
  | nil =>
    simp only [groupUpdate, List.mem_singleton, Prod.mk.injEq] at hmem
    obtain ⟨h1, h2⟩ := hmem
    subst h1; subst h2
    simp only [List.mem_singleton] at hx
    exact Or.inr ⟨hx, rfl⟩
  | cons p rest ih =>
    obtain ⟨d0, q0⟩ := p
    by_cases h : d0 = s.dept
    · simp only [groupUpdate, if_pos h, List.mem_cons, Prod.mk.injEq] at hmem
      rcases hmem with ⟨h1, h2⟩ | hmem
      · subst h1; subst h2
        rcases List.mem_append.mp hx with hx | hx
        · exact Or.inl ⟨q0, List.mem_cons_self _ _, hx⟩
        · simp only [List.mem_singleton] at hx
          exact Or.inr ⟨hx, h⟩
      · exact Or.inl ⟨q, List.mem_cons_of_mem _ hmem, hx⟩
    · simp only [groupUpdate, if_neg h, List.mem_cons, Prod.mk.injEq] at hmem
      rcases hmem with ⟨h1, h2⟩ | hmem
      · subst h1; subst h2
        exact Or.inl ⟨q, List.mem_cons_self _ _, hx⟩
      · rcases ih hmem with ⟨q1, hq1, hxq1⟩ | hr
        · exact Or.inl ⟨q1, List.mem_cons_of_mem _ hq1, hxq1⟩
        · exact Or.inr hr

theorem groupUpdate_keys (acc : List (String × List Student)) (s : Student) :
    (groupUpdate acc s).map Prod.fst
      = if s.dept ∈ acc.map Prod.fst then acc.map Prod.fst
        else acc.map Prod.fst ++ [s.dept] := by
  induction acc with
  | nil => simp [groupUpdate]
  | cons p rest ih =>
    obtain ⟨d0, q0⟩ := p
    by_cases h : d0 = s.dept
    · subst h
      simp [groupUpdate]
    · simp only [groupUpdate, if_neg h, List.map_cons, ih, List.mem_cons]
      by_cases h2 : s.dept ∈ rest.map Prod.fst
      · simp [h2, Ne.symm h]
      · simp [h2, Ne.symm h]

theorem groupUpdate_keys_nodup (acc : List (String × List Student)) (s : Student)
    (h : (acc.map Prod.fst).Nodup) : ((groupUpdate acc s).map Prod.fst).Nodup := by
  rw [groupUpdate_keys]
  by_cases hmem : s.dept ∈ acc.map Prod.fst
  · simpa [hmem] using h
  · simp only [if_neg hmem]
    rw [List.nodup_append]
    refine ⟨h, List.nodup_singleton _, ?_⟩
    intro x hx hx2
    simp only [List.mem_singleton] at hx2
    subst hx2
    exact hmem hx

theorem foldl_groupUpdate_sum (l : List Student) :
    ∀ acc, ((l.foldl groupUpdate acc).map (fun p => p.2.length)).sum
      = ((acc.map (fun p => p.2.length)).sum) + l.length := by
  induction l with
  | nil => intro acc; simp
  | cons s rest ih =>
    intro acc
    simp only [List.foldl_cons, ih, groupUpdate_sum, List.length_cons]
    omega

theorem groupByDept_sum (students : List Student) :
    ((groupByDept students).map (fun p => p.2.length)).sum = students.length := by
  simpa using foldl_groupUpdate_sum students []

theorem foldl_groupUpdate_mem (l : List Student) :
    ∀ acc d q x, (d, q) ∈ l.foldl groupUpdate acc → x ∈ q →
      (∃ q0, (d, q0) ∈ acc ∧ x ∈ q0) ∨ (x ∈ l ∧ x.dept = d) := by
  induction l with
  | nil =>
    intro acc d q x hmem hx
    exact Or.inl ⟨q, hmem, hx⟩
  | cons s rest ih =>
    intro acc d q x hmem hx
    rcases ih (groupUpdate acc s) d q x hmem hx with ⟨q0, hq0, hxq0⟩ | ⟨hxl, hd⟩
    · rcases groupUpdate_mem acc s d q0 x hq0 hxq0 with ⟨q1, hq1, hxq1⟩ | ⟨hxs, hd⟩
      · exact Or.inl ⟨q1, hq1, hxq1⟩
      · exact Or.inr ⟨by simp [hxs], by rw [hxs, hd]⟩
    · exact Or.inr ⟨List.mem_cons_of_mem _ hxl, hd⟩

theorem groupByDept_mem (students : List Student) (d : String) (q : List Student)
    (x : Student) (hmem : (d, q) ∈ groupByDept students) (hx : x ∈ q) :
    x ∈ students ∧ x.dept = d := by
  rcases foldl_groupUpdate_mem students [] d q x hmem hx with ⟨q0, hq0, _⟩ | h
  · simp at hq0
  · exact h

theorem groupByDept_keys_nodup (students : List Student) :
    ((groupByDept students).map Prod.fst).Nodup := by
  have h : ∀ (l : List Student) (acc : List (String × List Student)),
      (acc.map Prod.fst).Nodup → ((l.foldl groupUpdate acc).map Prod.fst).Nodup := by
    intro l
    induction l with
    | nil => intro acc h; exact h
    | cons s rest ih =>
      intro acc hacc
      exact ih (groupUpdate acc s) (groupUpdate_keys_nodup acc s hacc)
  simpa using h students [] (by simp)

theorem groupByDept_ne_nil (students : List Student) (h : students ≠ []) :
    groupByDept students ≠ [] := by
  have hgen : ∀ (l : List Student) (acc : List (String × List Student)),
      acc ≠ [] → l.foldl groupUpdate acc ≠ [] := by
    intro l
    induction l with
    | nil => intro acc h; exact h
    | cons s rest ih =>
      intro acc _
      exact ih (groupUpdate acc s) (groupUpdate_ne_nil acc s)
  cases students with
  | nil => exact absurd rfl h
  | cons s rest =>
    show (rest.foldl groupUpdate (groupUpdate [] s)) ≠ []
    exact hgen rest _ (groupUpdate_ne_nil [] s)

theorem deptQueue_of_mem (m : List (String × List Student)) (d : String)
    (q : List Student) (hnd : (m.map Prod.fst).Nodup) (hmem : (d, q) ∈ m) :
    deptQueue m d = q := by
  induction m with
  | nil => simp at hmem
  | cons p rest ih =>
    obtain ⟨d0, q0⟩ := p
    simp only [List.map_cons, List.nodup_cons] at hnd
    rcases List.mem_cons.mp hmem with h | h
    · rw [Prod.mk.injEq] at h
      obtain ⟨h1, h2⟩ := h
      subst h1; subst h2
      simp [deptQueue]
    · have hne : d0 ≠ d := by
        intro e
        exact hnd.1 (e ▸ (List.mem_map.mpr ⟨(d, q), h, rfl⟩))
      rw [deptQueue, List.find?_cons_of_neg _ (by simpa using hne)]
      exact ih hnd.2 h

/-! ### Facts about popping one student off a queue -/

theorem popDept_keys (m : List (String × List Student)) (d : String) :
    (popDept m d).map Prod.fst = m.map Prod.fst := by
  induction m with
  | nil => simp [popDept]
  | cons p rest ih =>
    obtain ⟨k, q⟩ := p
    by_cases h : k = d
    · simp [popDept, if_pos h]
    · simp [popDept, if_neg h, ih]

theorem popDept_mem (m : List (String × List Student)) (d d' : String)
    (q' : List Student) (hmem : (d', q') ∈ popDept m d) :
    (d', q') ∈ m ∨ ∃ q0, (d', q0) ∈ m ∧ q' = q0.drop 1 := by
  induction m with
  | nil => simp [popDept] at hmem
  | cons p rest ih =>
    obtain ⟨k, q⟩ := p
    by_cases h : k = d
    · simp only [popDept, if_pos h, List.mem_cons, Prod.mk.injEq] at hmem
      rcases hmem with ⟨h1, h2⟩ | hmem
      · exact Or.inr ⟨q, by simp [h1], h2⟩
      · exact Or.inl (List.mem_cons_of_mem _ hmem)
    · simp only [popDept, if_neg h, List.mem_cons, Prod.mk.injEq] at hmem
      rcases hmem with ⟨h1, h2⟩ | hmem
      · exact Or.inl (by simp [h1, h2])
      · rcases ih hmem with h2 | ⟨q0, hq0, he⟩
        · exact Or.inl (List.mem_cons_of_mem _ h2)
        · exact Or.inr ⟨q0, List.mem_cons_of_mem _ hq0, he⟩

theorem deptQueue_cons_self (d : String) (q : List Student)
    (rest : List (String × List Student)) : deptQueue ((d, q) :: rest) d = q := by
  simp [deptQueue]

theorem deptQueue_cons_ne (k d : String) (q : List Student)
    (rest : List (String × List Student)) (h : k ≠ d) :
    deptQueue ((k, q) :: rest) d = deptQueue rest d := by
  rw [deptQueue, List.find?_cons_of_neg _ (by simpa using h)]
  rfl

theorem popDept_cons_self (d : String) (q : List Student)
    (rest : List (String × List Student)) :
    popDept ((d, q) :: rest) d = (d, q.drop 1) :: rest := by
  simp [popDept]

theorem popDept_cons_ne (k d : String) (q : List Student)
    (rest : List (String × List Student)) (h : k ≠ d) :
    popDept ((k, q) :: rest) d = (k, q) :: popDept rest d := by
  simp [popDept, if_neg h]

theorem popDept_sum (m : List (String × List Student)) (d : String)
    (hne : deptQueue m d ≠ []) :
    ((popDept m d).map (fun p => p.2.length)).sum + 1
      = (m.map (fun p => p.2.length)).sum := by
  induction m with
  | nil => simp [deptQueue] at hne
  | cons p rest ih =>
    obtain ⟨k, q⟩ := p
    by_cases h : k = d
    · subst h
      rw [deptQueue_cons_self] at hne
      rw [popDept_cons_self]
      simp only [List.map_cons, List.sum_cons, List.length_drop]
      have : q.length ≠ 0 := fun e => hne (List.eq_nil_of_length_eq_zero e)
      omega
    · rw [deptQueue_cons_ne k d q rest h] at hne
      rw [popDept_cons_ne k d q rest h]
      simp only [List.map_cons, List.sum_cons]
      have h2 := ih hne
      omega

/-! ### Facts about indexed-write grids -/

theorem foldlSet_length (ws : List (Nat × Seat)) :
    ∀ g : List Seat, (ws.foldl (fun g kv => g.set kv.1 kv.2) g).length = g.length := by
  induction ws with
  | nil => intro g; rfl
  | cons kv rest ih =>
    intro g
    simp [ih, List.length_set]

theorem mkGrid_length (n : Nat) (ws : List (Nat × Seat)) : (mkGrid n ws).length = n := by
  simp [mkGrid, foldlSet_length]

theorem foldlSet_getElem?_not_mem (ws : List (Nat × Seat)) :
    ∀ (g : List Seat) (k : Nat), k ∉ ws.map Prod.fst →
      (ws.foldl (fun g kv => g.set kv.1 kv.2) g)[k]? = g[k]? := by
  induction ws with
  | nil => intro g k _; rfl
  | cons kv rest ih =>
    intro g k hk
    simp only [List.map_cons, List.mem_cons] at hk
    push_neg at hk
    rw [List.foldl_cons, ih _ k hk.2, List.getElem?_set_ne (fun e => hk.1 e.symm)]

theorem foldlSet_getElem?_of_mem (ws : List (Nat × Seat)) :
    ∀ (g : List Seat) (k : Nat) (v : Seat), (ws.map Prod.fst).Nodup →
      (k, v) ∈ ws → k < g.length →
      (ws.foldl (fun g kv => g.set kv.1 kv.2) g)[k]? = some v := by
  induction ws with
  | nil => intro g k v _ h _; simp at h
  | cons kv rest ih =>
    intro g k v hnd hmem hk
    simp only [List.map_cons, List.nodup_cons] at hnd
    rcases List.mem_cons.mp hmem with h | h
    · subst h
      rw [List.foldl_cons, foldlSet_getElem?_not_mem rest _ k hnd.1,
        List.getElem?_set_self hk]
    · have : k ∈ rest.map Prod.fst := List.mem_map.mpr ⟨(k, v), h, rfl⟩
      rw [List.foldl_cons]
      exact ih _ k v hnd.2 h (by simpa [List.length_set] using hk)

theorem mkGrid_getElem?_of_mem (n : Nat) (ws : List (Nat × Seat)) (k : Nat) (v : Seat)
    (hnd : (ws.map Prod.fst).Nodup) (hmem : (k, v) ∈ ws) (hk : k < n) :
    (mkGrid n ws)[k]? = some v :=
  foldlSet_getElem?_of_mem ws _ k v hnd hmem (by simpa using hk)

theorem mkGrid_getD_of_mem (n : Nat) (ws : List (Nat × Seat)) (k : Nat) (v : Seat)
    (hnd : (ws.map Prod.fst).Nodup) (hmem : (k, v) ∈ ws) (hk : k < n) :
    (mkGrid n ws).getD k seat0 = v := by
  rw [List.getD_eq_getElem?_getD, mkGrid_getElem?_of_mem n ws k v hnd hmem hk]
  rfl

theorem mkGrid_getElem?_not_mem (n : Nat) (ws : List (Nat × Seat)) (k : Nat)
    (hk : k < n) (hnot : k ∉ ws.map Prod.fst) : (mkGrid n ws)[k]? = some seat0 := by
  rw [mkGrid, foldlSet_getElem?_not_mem ws _ k hnot]
  simp [List.getElem?_eq_getElem, hk]

/-- The unique value written at index k (used to relate an indexed-write
grid to its write list when the written indices are distinct). -/
def valueAt (ws : List (Nat × Seat)) (k : Nat) : Seat :=
  ((ws.find? (fun p => p.1 == k)).map Prod.snd).getD seat0

theorem mkGrid_eq_map_valueAt (n : Nat) (ws : List (Nat × Seat))
    (hnd : (ws.map Prod.fst).Nodup) :
    mkGrid n ws = (List.range n).map (valueAt ws) := by
  apply List.ext_getElem
  · simp [mkGrid_length]
  · intro k h1 h2
    have hkn : k < n := by simpa [mkGrid_length] using h1
    have hr : ((List.range n).map (valueAt ws))[k] = valueAt ws k := by
      simp
    rw [hr]
    cases hfind : ws.find? (fun p => p.1 == k) with
    | none =>
      have hknot : k ∉ ws.map Prod.fst := by
        intro hk
        obtain ⟨p, hpmem, hpk⟩ := List.mem_map.mp hk
        have := List.find?_eq_none.mp hfind p hpmem
        simp [hpk] at this
      have h0 := mkGrid_getElem?_not_mem n ws k hkn hknot
      rw [List.getElem?_eq_getElem h1] at h0
      rw [Option.some.inj h0, valueAt, hfind]
      rfl
    | some p =>
      have hpk : p.1 = k := by simpa using List.find?_some hfind
      have hpmem : p ∈ ws := List.mem_of_find?_eq_some hfind
      have hmem2 : (k, p.2) ∈ ws := by
        rw [← hpk]
        exact hpmem
      have h0 := mkGrid_getElem?_of_mem n ws k p.2 hnd hmem2 hkn
      rw [List.getElem?_eq_getElem h1] at h0
      rw [Option.some.inj h0, valueAt, hfind]
      rfl

theorem keys_map_valueAt (ws : List (Nat × Seat)) (hnd : (ws.map Prod.fst).Nodup) :
    (ws.map Prod.fst).map (valueAt ws) = ws.map Prod.snd := by
  induction ws with
  | nil => rfl
  | cons p rest ih =>
    simp only [List.map_cons, List.nodup_cons] at hnd ⊢
    have hhead : valueAt (p :: rest) p.1 = p.2 := by
      simp [valueAt, List.find?_cons]
    have hcongr : (rest.map Prod.fst).map (valueAt (p :: rest))
        = (rest.map Prod.fst).map (valueAt rest) := by
      apply List.map_congr_left
      intro k hk
      have hne : p.1 ≠ k := by
        intro e
        rw [e] at hnd
        exact hnd.1 hk
      rw [valueAt, valueAt, List.find?_cons_of_neg _ (by simpa using hne)]
    rw [hhead, hcongr, ih hnd.2]

theorem mkGrid_perm (n : Nat) (ws : List (Nat × Seat))
    (hnd : (ws.map Prod.fst).Nodup) (hlt : ∀ k ∈ ws.map Prod.fst, k < n)
    (hlen : (ws.map Prod.fst).length = n) :
    (mkGrid n ws).Perm (ws.map Prod.snd) := by
  have hkeys : (ws.map Prod.fst).Perm (List.range n) := by
    apply List.Subperm.perm_of_length_le
    · exact hnd.subperm (fun k hk => List.mem_range.mpr (hlt k hk))
    · simp [hlen]
  rw [mkGrid_eq_map_valueAt n ws hnd]
  have h1 : ((List.range n).map (valueAt ws)).Perm ((ws.map Prod.fst).map (valueAt ws)) :=
    (hkeys.symm).map _
  rw [keys_map_valueAt ws hnd] at h1
  exact h1

theorem occupiedCount_mkGrid (n : Nat) (ws : List (Nat × Seat))
    (hnd : (ws.map Prod.fst).Nodup) (hlt : ∀ k ∈ ws.map Prod.fst, k < n)
    (hlen : (ws.map Prod.fst).length = n) :
    occupiedCount (mkGrid n ws) = (ws.map Prod.snd).countP (fun s => !s.isEmpty) :=
  (mkGrid_perm n ws hnd hlt hlen).countP_eq _

/-! ### Adjacency-avoiding strategy: predicates and helper lemmas -/

/-- Both seats are occupied and their occupants map to the same
department under the studentDept lookup the source uses. -/
def sameOccupiedDept (students : List Student) (a b : Seat) : Prop :=
  a.studentId ≠ "" ∧ b.studentId ≠ "" ∧
    studentDept students a.studentId = studentDept students b.studentId

/-- No occupied seat shares a department with the occupied seat
vertically above it (index k - cols) or horizontally to its left
(index k - 1, same row). -/
def noAdjSame (students : List Student) (cols : Nat) (seats : List Seat) : Prop :=
  ∀ k, k < seats.length →
    (cols ≤ k →
      ¬ sameOccupiedDept students (seats.getD k seat0) (seats.getD (k - cols) seat0)) ∧
    (k % cols ≠ 0 →
      ¬ sameOccupiedDept students (seats.getD k seat0) (seats.getD (k - 1) seat0))

/-- The seat at list index k carries the row-major coordinates
(k / cols + 1, k % cols + 1). -/
def gridShape (cols : Nat) (seats : List Seat) : Prop :=
  ∀ k, k < seats.length → (seats.getD k seat0).row = k / cols + 1 ∧
    (seats.getD k seat0).column = k % cols + 1

/-- Every occupied seat is occupied by a roster member. -/
def occupierOK (students : List Student) (seats : List Seat) : Prop :=
  ∀ k, k < seats.length → (seats.getD k seat0).studentId ≠ "" →
    ∃ x, x ∈ students ∧ x.id = (seats.getD k seat0).studentId

/-- Every queued student belongs to the roster and to the queue of its
own department. -/
def rosterDeptOK (students : List Student) (m : List (String × List Student)) : Prop :=
  ∀ d q x, (d, q) ∈ m → x ∈ q → x ∈ students ∧ x.dept = d

theorem getD_append_lt (l : List Seat) (x : Seat) (k : Nat) (h : k < l.length) :
    (l ++ [x]).getD k seat0 = l.getD k seat0 := by
  rw [List.getD_eq_getElem?_getD, List.getD_eq_getElem?_getD,
    List.getElem?_append_left h]

theorem getD_append_len (l : List Seat) (x : Seat) :
    (l ++ [x]).getD l.length seat0 = x := by
  rw [List.getD_eq_getElem?_getD]
  simp

theorem find?_id_of_nodup (l : List Student) (x : Student)
    (hnd : (l.map (fun s => s.id)).Nodup) (hx : x ∈ l) :
    l.find? (fun s => s.id == x.id) = some x := by
  induction l with
  | nil => simp at hx
  | cons h t ih =>
    simp only [List.map_cons, List.nodup_cons] at hnd
    rcases List.mem_cons.mp hx with he | ht
    · subst he
      simp [List.find?_cons]
    · have hne : h.id ≠ x.id := by
        intro e
        apply hnd.1
        rw [e]
        exact List.mem_map.mpr ⟨x, ht, rfl⟩
      rw [List.find?_cons_of_neg _ (by simpa using hne)]
      exact ih hnd.2 ht

theorem studentDept_of_mem (students : List Student) (x : Student)
    (hnd : (idsOf students).Nodup) (hx : x ∈ students) :
    studentDept students x.id = some x.dept := by
  have hnd2 : (students.reverse.map (fun s => s.id)).Nodup := by
    rw [List.map_reverse]
    exact (List.nodup_reverse).mpr (by simpa [idsOf] using hnd)
  rw [studentDept, find?_id_of_nodup _ x hnd2 (List.mem_reverse.mpr hx)]
  rfl

theorem eligibleDepts_spec (m : List (String × List Student)) (adj : List String)
    (d : String) (h : d ∈ eligibleDepts m adj) :
    (∃ q, (d, q) ∈ m ∧ q ≠ []) ∧ d ∉ adj := by
  obtain ⟨p, hp, he⟩ := List.mem_map.mp h
  obtain ⟨hpm, hpred⟩ := List.mem_filter.mp hp
  subst he
  simp only [Bool.and_eq_true, Bool.not_eq_true'] at hpred
  refine ⟨⟨p.2, by simpa using hpm, ?_⟩, ?_⟩
  · intro e
    rw [e] at hpred
    simp at hpred
  · intro hmem
    have h2 := hpred.2
    simp at h2
    exact h2 hmem

theorem mem_adjOf_above (students : List Student) (cols : Nat) (seats : List Seat)
    (k : Nat) (hc : cols ≤ k) (dep : String)
    (hne : (seats.getD (k - cols) seat0).studentId ≠ "")
    (hsome : studentDept students (seats.getD (k - cols) seat0).studentId = some dep) :
    dep ∈ adjOf students cols seats k := by
  rw [adjOf]
  apply List.mem_append.mpr
  left
  simp only [if_pos hc, if_pos hne, hsome]
  simp

theorem mem_adjOf_left (students : List Student) (cols : Nat) (seats : List Seat)
    (k : Nat) (hc : k % cols ≠ 0) (dep : String)
    (hne : (seats.getD (k - 1) seat0).studentId ≠ "")
    (hsome : studentDept students (seats.getD (k - 1) seat0).studentId = some dep) :
    dep ∈ adjOf students cols seats k := by
  rw [adjOf]
  apply List.mem_append.mpr
  right
  simp only [if_pos hc, if_pos hne, hsome]
  simp

theorem noAdjSame_append (students : List Student) (cols : Nat) (seats : List Seat)
    (new : Seat) (hcols : cols ≠ 0) (hprev : noAdjSame students cols seats)
    (habove : cols ≤ seats.length →
      ¬ sameOccupiedDept students new (seats.getD (seats.length - cols) seat0))
    (hleft : seats.length % cols ≠ 0 →
      ¬ sameOccupiedDept students new (seats.getD (seats.length - 1) seat0)) :
    noAdjSame students cols (seats ++ [new]) := by
  intro k hk
  rw [List.length_append, List.length_singleton] at hk
  by_cases hlt : k < seats.length
  · have h1 := hprev k hlt
    constructor
    · intro hc
      rw [getD_append_lt _ _ _ hlt, getD_append_lt _ _ _ (by omega)]
      exact h1.1 hc
    · intro hc
      have hk0 : k ≠ 0 := by
        intro e
        rw [e] at hc
        exact hc (Nat.zero_mod cols)
      rw [getD_append_lt _ _ _ hlt, getD_append_lt _ _ _ (by omega)]
      exact h1.2 hc
  · have hke : k = seats.length := by omega
    subst hke
    constructor
    · intro hc
      have hcp : 0 < cols := Nat.pos_of_ne_zero hcols
      rw [getD_append_len, getD_append_lt _ _ _ (by omega)]
      exact habove hc
    · intro hc
      have hk0 : seats.length ≠ 0 := by
        intro e
        rw [e] at hc
        exact hc (Nat.zero_mod cols)
      rw [getD_append_len, getD_append_lt _ _ _ (by omega)]
      exact hleft hc

theorem gridShape_append (cols : Nat) (seats : List Seat) (new : Seat)
    (hprev : gridShape cols seats)
    (hnew : new.row = seats.length / cols + 1 ∧ new.column = seats.length % cols + 1) :
    gridShape cols (seats ++ [new]) := by
  intro k hk
  rw [List.length_append, List.length_singleton] at hk
  by_cases hlt : k < seats.length
  · rw [getD_append_lt _ _ _ hlt]
    exact hprev k hlt
  · have hke : k = seats.length := by omega
    subst hke
    rw [getD_append_len]
    exact hnew

theorem occupierOK_append (students : List Student) (seats : List Seat) (new : Seat)
    (hprev : occupierOK students seats)
    (hnew : new.studentId ≠ "" → ∃ x, x ∈ students ∧ x.id = new.studentId) :
    occupierOK students (seats ++ [new]) := by
  intro k hk
  rw [List.length_append, List.length_singleton] at hk
  by_cases hlt : k < seats.length
  · rw [getD_append_lt _ _ _ hlt]
    exact hprev k hlt
  · have hke : k = seats.length := by omega
    subst hke
    rw [getD_append_len]
    exact hnew

theorem rosterDeptOK_popDept (students : List Student)
    (m : List (String × List Student)) (d : String) (h : rosterDeptOK students m) :
    rosterDeptOK students (popDept m d) := by
  intro d' q' x hmem hx
  rcases popDept_mem m d d' q' hmem with h2 | ⟨q0, hq0, he⟩
  · exact h d' q' x h2 hx
  · subst he
    exact h d' q0 x hq0 (List.drop_subset 1 q0 hx)

theorem occupiedCount_append_occupied (l : List Seat) (x : Seat) (h : x.isEmpty = false) :
    occupiedCount (l ++ [x]) = occupiedCount l + 1 := by
  simp [occupiedCount, List.countP_append, List.countP_cons, h]

theorem occupiedCount_append_empty (l : List Seat) (x : Seat) (h : x.isEmpty = true) :
    occupiedCount (l ++ [x]) = occupiedCount l := by
  simp [occupiedCount, List.countP_append, List.countP_cons, h]

/-- Post-state of the adjacency-avoiding fill loop relative to its
starting state. -/
def snakePost (students : List Student) (cols : Nat) (seats0 : List Seat)
    (m0 : List (String × List Student))
    (r : List Seat × List (String × List Student)) (c : Nat) : Prop :=
  r.1.length = seats0.length + c ∧ occupierOK students r.1 ∧
  noAdjSame students cols r.1 ∧ gridShape cols r.1 ∧
  occupiedCount r.1 + unassignedOf r.2 = occupiedCount seats0 + unassignedOf m0

theorem snakeStep_inv (students : List Student) (choose : List String → String)
    (cols : Nat) (seats : List Seat) (m : List (String × List Student))
    (hcols : cols ≠ 0) (hch : goodChoose choose)
    (hids : ∀ x ∈ students, x.id ≠ "") (hnd : (idsOf students).Nodup)
    (hmk : (m.map Prod.fst).Nodup) (hro : rosterDeptOK students m)
    (hocc : occupierOK students seats) (hadj : noAdjSame students cols seats)
    (hshape : gridShape cols seats) :
    ∃ new m2,
      snakeStep students choose cols (seats, m) seats.length = (seats ++ [new], m2) ∧
      (m2.map Prod.fst).Nodup ∧ rosterDeptOK students m2 ∧
      occupierOK students (seats ++ [new]) ∧
      noAdjSame students cols (seats ++ [new]) ∧
      gridShape cols (seats ++ [new]) ∧
      occupiedCount (seats ++ [new]) + unassignedOf m2
        = occupiedCount seats + unassignedOf m := by
  by_cases helig :
      (eligibleDepts m (adjOf students cols seats seats.length)).isEmpty
  · refine ⟨⟨seats.length / cols + 1, seats.length % cols + 1, "", true⟩, m,
      ?_, hmk, hro, ?_, ?_, ?_, ?_⟩
    · simp [snakeStep, helig]
    · exact occupierOK_append students seats _ hocc (fun h => absurd rfl h)
    · refine noAdjSame_append students cols seats _ hcols hadj ?_ ?_
      · intro _ hsame
        exact hsame.1 rfl
      · intro _ hsame
        exact hsame.1 rfl
    · exact gridShape_append cols seats _ hshape ⟨rfl, rfl⟩
    · rw [occupiedCount_append_empty seats _ rfl]
  · have hne : eligibleDepts m (adjOf students cols seats seats.length) ≠ [] := by
      simpa [List.isEmpty_iff] using helig
    have hd := hch _ hne
    obtain ⟨⟨q, hqm, hqne⟩, hdadj⟩ := eligibleDepts_spec m _ _ hd
    have hqd : deptQueue m
        (choose (eligibleDepts m (adjOf students cols seats seats.length))) = q :=
      deptQueue_of_mem m _ q hmk hqm
    cases q with
    | nil => exact absurd rfl hqne
    | cons s qrest =>
      have hsmem := hro _ _ s hqm (List.mem_cons_self _ _)
      have hsid : s.id ≠ "" := hids s hsmem.1
      have hsdept : studentDept students s.id = some s.dept :=
        studentDept_of_mem students s hnd hsmem.1
      refine ⟨⟨seats.length / cols + 1, seats.length % cols + 1, s.id, false⟩,
        popDept m (choose (eligibleDepts m (adjOf students cols seats seats.length))),
        ?_, ?_, ?_, ?_, ?_, ?_, ?_⟩
      · simp [snakeStep, helig, hqd]
      · rw [popDept_keys]
        exact hmk
      · exact rosterDeptOK_popDept students m _ hro
      · exact occupierOK_append students seats _ hocc (fun _ => ⟨s, hsmem.1, rfl⟩)
      · refine noAdjSame_append students cols seats _ hcols hadj ?_ ?_
        · intro hc hsame
          obtain ⟨h1, h2, h3⟩ := hsame
          obtain ⟨x, hx, hxid⟩ := hocc (seats.length - cols)
            (by have := Nat.pos_of_ne_zero hcols; omega) h2
          have hxdept : studentDept students
              (seats.getD (seats.length - cols) seat0).studentId = some x.dept := by
            rw [← hxid]
            exact studentDept_of_mem students x hnd hx
          have hmem2 : x.dept ∈ adjOf students cols seats seats.length :=
            mem_adjOf_above students cols seats seats.length hc x.dept h2 hxdept
          have heq : s.dept = x.dept := by
            have h4 : studentDept students s.id = some x.dept := by
              rw [h3, hxdept]
            rw [hsdept] at h4
            exact Option.some.inj h4
          rw [← hsmem.2, heq] at hdadj
          exact hdadj hmem2
        · intro hc hsame
          obtain ⟨h1, h2, h3⟩ := hsame
          have hk0 : seats.length ≠ 0 := by
            intro e
            rw [e] at hc
            exact hc (Nat.zero_mod cols)
          obtain ⟨x, hx, hxid⟩ := hocc (seats.length - 1) (by omega) h2
          have hxdept : studentDept students
              (seats.getD (seats.length - 1) seat0).studentId = some x.dept := by
            rw [← hxid]
            exact studentDept_of_mem students x hnd hx
          have hmem2 : x.dept ∈ adjOf students cols seats seats.length :=
            mem_adjOf_left students cols seats seats.length hc x.dept h2 hxdept
          have heq : s.dept = x.dept := by
            have h4 : studentDept students s.id = some x.dept := by
              rw [h3, hxdept]
            rw [hsdept] at h4
            exact Option.some.inj h4
          rw [← hsmem.2, heq] at hdadj
          exact hdadj hmem2
      · exact gridShape_append cols seats _ hshape ⟨rfl, rfl⟩
      · rw [occupiedCount_append_occupied seats _ rfl]
        have hps := popDept_sum m
          (choose (eligibleDepts m (adjOf students cols seats seats.length)))
          (by rw [hqd]; exact List.cons_ne_nil s qrest)
        unfold unassignedOf
        omega

theorem snakeFillGo_inv (students : List Student) (choose : List String → String)
    (cols : Nat) (hcols : cols ≠ 0) (hch : goodChoose choose)
    (hids : ∀ x ∈ students, x.id ≠ "") (hnd : (idsOf students).Nodup) :
    ∀ (c : Nat) (seats : List Seat) (m : List (String × List Student)),
      (m.map Prod.fst).Nodup → rosterDeptOK students m →
      occupierOK students seats → noAdjSame students cols seats →
      gridShape cols seats →
      snakePost students cols seats m
        (snakeFillGo students choose cols (List.range' seats.length c) (seats, m)) c := by
  intro c
  induction c with
  | zero =>
    intro seats m _ _ hocc hadj hshape
    exact ⟨rfl, hocc, hadj, hshape, rfl⟩
  | succ c ih =>
    intro seats m hmk hro hocc hadj hshape
    obtain ⟨new, m2, hstep, hmk2, hro2, hocc2, hadj2, hshape2, hcnt⟩ :=
      snakeStep_inv students choose cols seats m hcols hch hids hnd hmk hro hocc
        hadj hshape
    rw [List.range'_succ]
    show snakePost students cols seats m
      (snakeFillGo students choose cols
        (seats.length :: List.range' (seats.length + 1) c)
        (seats, m)) (c + 1)
    rw [snakeFillGo, hstep]
    have hlen2 : seats.length + 1 = (seats ++ [new]).length := by simp
    rw [hlen2]
    obtain ⟨hl, ho, ha, hs, hc2⟩ := ih (seats ++ [new]) m2 hmk2 hro2 hocc2 hadj2 hshape2
    refine ⟨?_, ho, ha, hs, ?_⟩
    · rw [hl]
      simp
      omega
    · rw [hc2]
      omega

theorem snakeStep_count (students : List Student) (choose : List String → String)
    (cols : Nat) (seats : List Seat) (m : List (String × List Student)) (k : Nat)
    (hch : goodChoose choose) (hmk : (m.map Prod.fst).Nodup) :
    ∃ new m2, snakeStep students choose cols (seats, m) k = (seats ++ [new], m2) ∧
      (m2.map Prod.fst).Nodup ∧
      occupiedCount (seats ++ [new]) + unassignedOf m2
        = occupiedCount seats + unassignedOf m := by
  by_cases helig : (eligibleDepts m (adjOf students cols seats k)).isEmpty
  · refine ⟨⟨k / cols + 1, k % cols + 1, "", true⟩, m, ?_, hmk, ?_⟩
    · simp [snakeStep, helig]
    · rw [occupiedCount_append_empty seats _ rfl]
  · have hne : eligibleDepts m (adjOf students cols seats k) ≠ [] := by
      simpa [List.isEmpty_iff] using helig
    have hd := hch _ hne
    obtain ⟨⟨q, hqm, hqne⟩, _⟩ := eligibleDepts_spec m _ _ hd
    have hqd : deptQueue m (choose (eligibleDepts m (adjOf students cols seats k))) = q :=
      deptQueue_of_mem m _ q hmk hqm
    cases q with
    | nil => exact absurd rfl hqne
    | cons s qrest =>
      refine ⟨⟨k / cols + 1, k % cols + 1, s.id, false⟩,
        popDept m (choose (eligibleDepts m (adjOf students cols seats k))), ?_, ?_, ?_⟩
      · simp [snakeStep, helig, hqd]
      · rw [popDept_keys]
        exact hmk
      · rw [occupiedCount_append_occupied seats _ rfl]
        have hps := popDept_sum m
          (choose (eligibleDepts m (adjOf students cols seats k)))
          (by rw [hqd]; exact List.cons_ne_nil s qrest)
        unfold unassignedOf
        omega

theorem snakeFillGo_count (students : List Student) (choose : List String → String)
    (cols : Nat) (hch : goodChoose choose) :
    ∀ (ks : List Nat) (seats : List Seat) (m : List (String × List Student)),
      (m.map Prod.fst).Nodup →
      occupiedCount (snakeFillGo students choose cols ks (seats, m)).1
          + unassignedOf (snakeFillGo students choose cols ks (seats, m)).2
        = occupiedCount seats + unassignedOf m := by
  intro ks
  induction ks with
  | nil => intro seats m _; rfl
  | cons k ks ih =>
    intro seats m hmk
    obtain ⟨new, m2, hstep, hmk2, hcnt⟩ :=
      snakeStep_count students choose cols seats m k hch hmk
    rw [snakeFillGo, hstep]
    rw [ih (seats ++ [new]) m2 hmk2]
    exact hcnt

theorem snakeFill_count (room : Room) (students : List Student)
    (choose : List String → String) (hch : goodChoose choose) :
    occupiedCount (snakeFill room students choose).1
        + unassignedOf (snakeFill room students choose).2 = students.length := by
  rw [snakeFill]
  rw [snakeFillGo_count students choose room.columns hch _ [] (groupByDept students)
    (groupByDept_keys_nodup students)]
  simp [occupiedCount, unassignedOf, groupByDept_sum]

theorem snakeSeatingB_ok_eq (room : Room) (students : List Student)
    (choose : List String → String) (g : List Seat)
    (h : snakeSeatingB room students choose = .ok g) :
    g = (snakeFill room students choose).1 ∧
    unassignedOf (snakeFill room students choose).2 = 0 := by
  by_cases hu : 0 < unassignedOf (snakeFill room students choose).2
  · simp only [snakeSeatingB, if_pos hu] at h
    exact Except.noConfusion h
  · simp only [snakeSeatingB, if_neg hu, Except.ok.injEq] at h
    exact ⟨h.symm, by omega⟩

theorem snakeSeatingB_error_eq (room : Room) (students : List Student)
    (choose : List String → String) (n : Nat)
    (h : snakeSeatingB room students choose = .error n) :
    n = unassignedOf (snakeFill room students choose).2 ∧ 0 < n := by
  by_cases hu : 0 < unassignedOf (snakeFill room students choose).2
  · simp only [snakeSeatingB, if_pos hu, Except.error.injEq] at h
    exact ⟨h.symm, h ▸ hu⟩
  · simp only [snakeSeatingB, if_neg hu] at h
    exact Except.noConfusion h

theorem snakeFill_post_top (room : Room) (students : List Student)
    (choose : List String → String) (hcols : room.columns ≠ 0)
    (hch : goodChoose choose) (hids : ∀ x ∈ students, x.id ≠ "")
    (hnd : (idsOf students).Nodup) :
    snakePost students room.columns [] (groupByDept students)
      (snakeFill room students choose) (room.rows * room.columns) := by
  have h := snakeFillGo_inv students choose room.columns hcols hch hids hnd
    (room.rows * room.columns) [] (groupByDept students)
    (groupByDept_keys_nodup students)
    (fun d q x hm hx => groupByDept_mem students d q x hm hx)
    (by intro k hk; simp at hk)
    (by intro k hk; simp at hk)
    (by intro k hk; simp at hk)
  rw [snakeFill, List.range_eq_range']
  simpa using h

theorem chooseHead_good : goodChoose chooseHead := by
  intro l hl
  cases l with
  | nil => exact absurd rfl hl
  | cons a t => exact List.mem_cons_self a t

theorem getLastD_mem : ∀ (l : List String) (d : String), l ≠ [] → l.getLastD d ∈ l := by
  intro l
  induction l with
  | nil => intro d h; exact absurd rfl h
  | cons a t ih =>
    intro d _
    cases ht : t with
    | nil =>
      subst ht
      simp [List.getLastD]
    | cons b t2 =>
      rw [List.getLastD_cons]
      subst ht
      exact List.mem_cons_of_mem a (ih a (by simp))

theorem chooseLast_good : goodChoose chooseLast := by
  intro l hl
  exact getLastD_mem l "" hl

def roomW12 : Room := ⟨"w", 1, 2, 2⟩

def rosterAB : List Student := [⟨"A", "A", "dX", ""⟩, ⟨"B", "B", "dY", ""⟩]

def gridAB : List Seat := [⟨1, 1, "A", false⟩, ⟨1, 2, "B", false⟩]

def room13 : Room := ⟨"r13", 1, 3, 3⟩

def rosterSameDept : List Student :=
  [⟨"s1", "s1", "dX", ""⟩, ⟨"s2", "s2", "dX", ""⟩, ⟨"s3", "s3", "dX", ""⟩]

/-- C3: for the Adjacency-Avoiding strategy (revision B
generateSnakeSeating), under every admissible map iteration order and
for every roster with unique non-empty ids, whenever a grid is returned
rather than Infeasible, the grid is row-major of full size and no
occupied seat shares its occupant department (under the studentDept
lookup the code uses, which on such rosters is each occupant's own
department) with the occupied seat vertically above it (index offset
columns) or horizontally to its left (offset 1 within a row). -/
theorem snakeB_adjacency_invariant (room : Room) (students : List Student)
    (choose : List String → String) (g : List Seat)
    (hch : goodChoose choose) (hids : ∀ x ∈ students, x.id ≠ "")
    (hnd : (idsOf students).Nodup)
    (hok : snakeSeatingB room students choose = .ok g) :
    g.length = room.rows * room.columns ∧ gridShape room.columns g ∧
    noAdjSame students room.columns g := by
  obtain ⟨hg, _⟩ := snakeSeatingB_ok_eq room students choose g hok
  by_cases hcols : room.columns = 0
  · have hfe : (snakeFill room students choose).1 = [] := by
      rw [snakeFill, hcols]
      simp [snakeFillGo]
    rw [hg, hfe]
    refine ⟨by simp [hcols], ?_, ?_⟩
    · intro k hk
      simp at hk
    · intro k hk
      simp at hk
  · have hpost := snakeFill_post_top room students choose hcols hch hids hnd
    unfold snakePost at hpost
    obtain ⟨hl, _, hadj, hshape, _⟩ := hpost
    rw [hg]
    exact ⟨by simpa using hl, hshape, hadj⟩

/-- Witness for C3 at a concrete 1-by-2 room with two departments. -/
theorem snakeB_adjacency_invariant_witness :
    goodChoose chooseHead ∧ (∀ x ∈ rosterAB, x.id ≠ "") ∧ (idsOf rosterAB).Nodup ∧
    (gridAB.length = roomW12.rows * roomW12.columns ∧
     gridShape roomW12.columns gridAB ∧ noAdjSame rosterAB roomW12.columns gridAB) :=
  ⟨chooseHead_good, by decide, by decide,
    snakeB_adjacency_invariant roomW12 rosterAB chooseHead gridAB chooseHead_good
      (by decide) (by decide) rfl⟩

/-- C4 (amended): under every admissible map iteration order, the
Adjacency-Avoiding strategy reports Infeasible with count n exactly
when n > 0 students remain unplaced after the full row-major traversal
(n plus the occupied seats of the traversal equals the roster size),
and otherwise returns the grid with every student placed; on the 1-by-3
room with three same-department candidates the middle seat is skipped
but the third seat is filled (its left neighbour being empty), so the
result is Infeasible with count 1, not 2. -/
theorem snakeB_infeasible_iff (room : Room) (students : List Student)
    (choose : List String → String) (hch : goodChoose choose) :
    (∀ n, snakeSeatingB room students choose = .error n →
      0 < n ∧ n + occupiedCount (snakeFillSeats room students choose) = students.length) ∧
    (∀ g, snakeSeatingB room students choose = .ok g →
      occupiedCount g = students.length) ∧
    snakeSeatingB room13 rosterSameDept chooseHead = .error 1 := by
  refine ⟨?_, ?_, rfl⟩
  · intro n herr
    obtain ⟨hn, hpos⟩ := snakeSeatingB_error_eq room students choose n herr
    have hc := snakeFill_count room students choose hch
    refine ⟨hpos, ?_⟩
    rw [snakeFillSeats]
    omega
  · intro g hok
    obtain ⟨hg, hu⟩ := snakeSeatingB_ok_eq room students choose g hok
    have hc := snakeFill_count room students choose hch
    rw [hg]
    omega

/-- Witness for C4 at the 1-by-3 same-department scenario. -/
theorem snakeB_infeasible_iff_witness :
    goodChoose chooseHead ∧
    snakeSeatingB room13 rosterSameDept chooseHead = .error 1 :=
  ⟨chooseHead_good,
    (snakeB_infeasible_iff room13 rosterSameDept chooseHead chooseHead_good).2.2⟩

/-- C4 counterexample: the claimed scenario result Infeasible 2 is
wrong; the code leaves only one student unplaced (the third seat has an
empty left neighbour and is filled). -/
theorem snakeB_one_by_three_not_two :
    snakeSeatingB room13 rosterSameDept chooseHead = .error 1 ∧
    snakeSeatingB room13 rosterSameDept chooseHead ≠ .error 2 := by
  have h1 : snakeSeatingB room13 rosterSameDept chooseHead = .error 1 := rfl
  refine ⟨h1, ?_⟩
  rw [h1]
  simp

/-- C5 counterexample: the Adjacency-Avoiding pick ranges over a Go map,
and two admissible iteration orders produce different grids on the same
input, so the strategy output is not a function of the grid and roster
alone. -/
theorem snakeB_order_dependent :
    goodChoose chooseHead ∧ goodChoose chooseLast ∧
    snakeSeatingB roomW12 rosterAB chooseHead
      ≠ snakeSeatingB roomW12 rosterAB chooseLast := by
  refine ⟨chooseHead_good, chooseLast_good, ?_⟩
  have h1 : snakeSeatingB roomW12 rosterAB chooseHead = .ok gridAB := rfl
  have h2 : snakeSeatingB roomW12 rosterAB chooseLast
      = .ok [⟨1, 1, "B", false⟩, ⟨1, 2, "A", false⟩] := rfl
  rw [h1, h2]
  intro h
  exact absurd (Except.ok.inj h) (by decide)

/-- C5 (amended): Column-Banded and Serpentine-Interleaved are
deterministic functions of room and roster (they iterate the explicit
first-seen department slice); the Adjacency-Avoiding strategy is
deterministic only relative to a fixed map iteration order, and two
admissible orders can give different outputs. -/
theorem strategies_determinism_amended (room room2 : Room) (st st2 : List Student)
    (h1 : room = room2) (h2 : st = st2) :
    parallelSeating room st = parallelSeating room2 st2 ∧
    randomSeatingB room st = randomSeatingB room2 st2 ∧
    ∃ c1 c2 : List String → String, goodChoose c1 ∧ goodChoose c2 ∧
      snakeSeatingB roomW12 rosterAB c1 ≠ snakeSeatingB roomW12 rosterAB c2 := by
  subst h1
  subst h2
  refine ⟨rfl, rfl, chooseHead, chooseLast, chooseHead_good, chooseLast_good, ?_⟩
  have ha : snakeSeatingB roomW12 rosterAB chooseHead = .ok gridAB := rfl
  have hb : snakeSeatingB roomW12 rosterAB chooseLast
      = .ok [⟨1, 1, "B", false⟩, ⟨1, 2, "A", false⟩] := rfl
  rw [ha, hb]
  intro h
  exact absurd (Except.ok.inj h) (by decide)

/-- Witness for C5 (amended) at identical concrete inputs. -/
theorem strategies_determinism_amended_witness :
    parallelSeating roomW12 rosterAB = parallelSeating roomW12 rosterAB ∧
    randomSeatingB roomW12 rosterAB = randomSeatingB roomW12 rosterAB ∧
    ∃ c1 c2 : List String → String, goodChoose c1 ∧ goodChoose c2 ∧
      snakeSeatingB roomW12 rosterAB c1 ≠ snakeSeatingB roomW12 rosterAB c2 :=
  strategies_determinism_amended roomW12 roomW12 rosterAB rosterAB rfl rfl

/-! ### Serpentine round-robin strategy: conservation -/

theorem snakeOrder_succ (rows cols : Nat) :
    snakeOrder (rows + 1) cols = snakeOrder rows cols ++
      (if rows % 2 = 0 then (List.range cols).map (fun j => rows * cols + j)
       else ((List.range cols).reverse).map (fun j => rows * cols + j)) := by
  rw [snakeOrder, snakeOrder, List.range_succ, List.flatMap_append]
  simp

theorem snakeOrder_perm (rows cols : Nat) :
    (snakeOrder rows cols).Perm (List.range (rows * cols)) := by
  induction rows with
  | zero => simp [snakeOrder]
  | succ r ih =>
    rw [snakeOrder_succ]
    have hr : (r + 1) * cols = r * cols + cols := by ring
    rw [hr, List.range_add]
    apply List.Perm.append ih
    by_cases he : r % 2 = 0
    · rw [if_pos he]
    · rw [if_neg he]
      exact (List.reverse_perm (List.range cols)).map _

theorem exists_nonempty_queue (m : List (String × List Student))
    (h : 0 < unassignedOf m) : ∃ p, p ∈ m ∧ p.2 ≠ [] := by
  induction m with
  | nil => simp [unassignedOf] at h
  | cons p rest ih =>
    by_cases hp : p.2 = []
    · have h2 : 0 < unassignedOf rest := by
        simpa [unassignedOf, hp] using h
      obtain ⟨q, hq, hqne⟩ := ih h2
      exact ⟨q, List.mem_cons_of_mem _ hq, hqne⟩
    · exact ⟨p, List.mem_cons_self _ _, hp⟩

theorem rrFind_isSome (m : List (String × List Student)) (depts : List String)
    (deptIdx : Nat) (hkeys : m.map Prod.fst = depts) (hnd : depts.Nodup)
    (hun : 0 < unassignedOf m) : ∃ t, rrFind m depts deptIdx = some t := by
  obtain ⟨p, hpm, hpne⟩ := exists_nonempty_queue m hun
  obtain ⟨i, hi, hgi⟩ := List.mem_iff_getElem.mp hpm
  have hlen : depts.length = m.length := by
    rw [← hkeys, List.length_map]
  have hip : i < depts.length := by omega
  have hdi : depts.getD i "" = p.1 := by
    have h1 : depts[i]? = (m.map Prod.fst)[i]? := by
      rw [hkeys]
    have h2 : (m.map Prod.fst)[i]? = some p.1 := by
      rw [List.getElem?_map, List.getElem?_eq_getElem hi, hgi]
      rfl
    rw [List.getD_eq_getElem?_getD, h1, h2]
    rfl
  have hlpos : 0 < depts.length := by omega
  set r := deptIdx % depts.length with hrdef
  have hrlt : r < depts.length := Nat.mod_lt _ hlpos
  have hex : ∃ t, t < depts.length ∧ (deptIdx + t) % depts.length = i := by
    rcases le_or_lt r i with hle | hlt
    · refine ⟨i - r, by omega, ?_⟩
      rw [Nat.add_mod, ← hrdef, Nat.mod_eq_of_lt (by omega : i - r < depts.length)]
      have : r + (i - r) = i := by omega
      rw [this, Nat.mod_eq_of_lt hip]
    · refine ⟨i + depts.length - r, by omega, ?_⟩
      rw [Nat.add_mod, ← hrdef,
        Nat.mod_eq_of_lt (by omega : i + depts.length - r < depts.length)]
      have : r + (i + depts.length - r) = i + depts.length := by omega
      rw [this, Nat.add_mod_right, Nat.mod_eq_of_lt hip]
  obtain ⟨t, htl, hti⟩ := hex
  have hpred : (!(deptQueue m (depts.getD ((deptIdx + t) % depts.length) "")).isEmpty)
      = true := by
    rw [hti, hdi]
    have hmnd : (m.map Prod.fst).Nodup := by
      rw [hkeys]
      exact hnd
    have hq : deptQueue m p.1 = p.2 := deptQueue_of_mem m p.1 p.2 hmnd hpm
    rw [hq]
    simpa [List.isEmpty_iff] using hpne
  cases hf : rrFind m depts deptIdx with
  | none =>
    exfalso
    have := List.find?_eq_none.mp hf t (List.mem_range.mpr htl)
    rw [hpred] at this
    exact this rfl
  | some t2 => exact ⟨t2, rfl⟩

theorem countP_cons_occupied (l : List Seat) (x : Seat) (h : x.isEmpty = false) :
    (x :: l).countP (fun s => !s.isEmpty) = l.countP (fun s => !s.isEmpty) + 1 := by
  simp [List.countP_cons, h]

theorem countP_cons_empty (l : List Seat) (x : Seat) (h : x.isEmpty = true) :
    (x :: l).countP (fun s => !s.isEmpty) = l.countP (fun s => !s.isEmpty) := by
  simp [List.countP_cons, h]

theorem deptQueue_ne_nil_mem (m : List (String × List Student)) (d : String)
    (h : deptQueue m d ≠ []) : (d, deptQueue m d) ∈ m := by
  cases hf : m.find? (fun p => p.1 == d) with
  | none =>
    exfalso
    apply h
    rw [deptQueue, hf]
    rfl
  | some p =>
    have hp1 : p.1 = d := by simpa using List.find?_some hf
    have hm := List.mem_of_find?_eq_some hf
    have hq : deptQueue m d = p.2 := by
      rw [deptQueue, hf]
      rfl
    rw [hq, ← hp1]
    exact hm

theorem rrFillGo_conservation (students : List Student) (depts : List String)
    (cols : Nat) (hnd : depts.Nodup) :
    ∀ (ks : List Nat) (m : List (String × List Student)) (deptIdx placed : Nat),
      m.map Prod.fst = depts → rosterDeptOK students m →
      placed + unassignedOf m = students.length →
      (rrFillGo students depts cols ks m deptIdx placed).map Prod.fst = ks ∧
      ((rrFillGo students depts cols ks m deptIdx placed).map Prod.snd).countP
          (fun s => !s.isEmpty) = min ks.length (unassignedOf m) ∧
      ∀ w ∈ rrFillGo students depts cols ks m deptIdx placed,
        (w : Nat × Seat).2.isEmpty = false → w.2.studentId ∈ idsOf students := by
  intro ks
  induction ks with
  | nil =>
    intro m deptIdx placed _ _ _
    refine ⟨rfl, by simp [rrFillGo], ?_⟩
    intro w hw
    simp [rrFillGo] at hw
  | cons k ks ih =>
    intro m deptIdx placed hkeys hro hinv
    by_cases hpl : placed < students.length
    · have hun : 0 < unassignedOf m := by
        unfold unassignedOf at *
        omega
      obtain ⟨t, hft⟩ := rrFind_isSome m depts deptIdx hkeys hnd hun
      have hpred := List.find?_some hft
      have hqne : deptQueue m (depts.getD ((deptIdx + t) % depts.length) "") ≠ [] := by
        simpa [List.isEmpty_iff] using hpred
      have hqmem := deptQueue_ne_nil_mem m _ hqne
      have hstep : rrFillGo students depts cols (k :: ks) m deptIdx placed
          = (k, ⟨k / cols + 1, k % cols + 1,
              ((deptQueue m (depts.getD ((deptIdx + t) % depts.length) "")).headD
                student0).id, false⟩)
            :: rrFillGo students depts cols ks
                (popDept m (depts.getD ((deptIdx + t) % depts.length) ""))
                (deptIdx + t + 1) (placed + 1) := by
        simp only [rrFillGo, if_pos hpl, hft]
      have hkeys2 : (popDept m (depts.getD ((deptIdx + t) % depts.length) "")).map
          Prod.fst = depts := by
        rw [popDept_keys, hkeys]
      have hro2 := rosterDeptOK_popDept students m
        (depts.getD ((deptIdx + t) % depts.length) "") hro
      have hsum := popDept_sum m (depts.getD ((deptIdx + t) % depts.length) "") hqne
      have hinv2 : (placed + 1) + unassignedOf
          (popDept m (depts.getD ((deptIdx + t) % depts.length) ""))
          = students.length := by
        unfold unassignedOf at *
        omega
      obtain ⟨hk2, hc2, hi2⟩ := ih _ (deptIdx + t + 1) (placed + 1) hkeys2 hro2 hinv2
      have hsmem : (deptQueue m (depts.getD ((deptIdx + t) % depts.length) "")).headD
          student0 ∈ deptQueue m (depts.getD ((deptIdx + t) % depts.length) "") := by
        cases hq : deptQueue m (depts.getD ((deptIdx + t) % depts.length) "") with
        | nil => exact absurd hq hqne
        | cons s rest => simp
      have hstu := hro _ _ _ hqmem hsmem
      refine ⟨?_, ?_, ?_⟩
      · rw [hstep, List.map_cons, hk2]
      · rw [hstep, List.map_cons, countP_cons_occupied _ _ rfl, hc2, List.length_cons]
        have hub : unassignedOf (popDept m (depts.getD ((deptIdx + t) % depts.length) ""))
            + 1 = unassignedOf m := hsum
        omega
      · intro w hw hocc
        rw [hstep] at hw
        rcases List.mem_cons.mp hw with he | hmem2
        · rw [he]
          exact List.mem_map.mpr ⟨_, hstu.1, rfl⟩
        · exact hi2 w hmem2 hocc
    · have hun0 : unassignedOf m = 0 := by
        unfold unassignedOf at *
        omega
      have hstep : rrFillGo students depts cols (k :: ks) m deptIdx placed
          = (k, ⟨k / cols + 1, k % cols + 1, "", true⟩)
            :: rrFillGo students depts cols ks m deptIdx placed := by
        simp only [rrFillGo, if_neg hpl]
      obtain ⟨hk2, hc2, hi2⟩ := ih m deptIdx placed hkeys hro hinv
      refine ⟨?_, ?_, ?_⟩
      · rw [hstep, List.map_cons, hk2]
      · rw [hstep, List.map_cons, countP_cons_empty _ _ rfl, hc2, List.length_cons, hun0]
        simp
      · intro w hw hocc
        rw [hstep] at hw
        rcases List.mem_cons.mp hw with he | hmem2
        · rw [he] at hocc
          simp at hocc
        · exact hi2 w hmem2 hocc

theorem randomSeatingB_eq (room : Room) (students : List Student) :
    randomSeatingB room students = mkGrid (room.rows * room.columns)
      (rrFillGo students ((groupByDept students).map Prod.fst) room.columns
        (snakeOrder room.rows room.columns) (groupByDept students) 0 0) := rfl

theorem randomSeatingB_conservation (room : Room) (students : List Student) :
    occupiedCount (randomSeatingB room students)
      = min students.length (room.rows * room.columns) ∧
    ∀ s ∈ randomSeatingB room students, s.isEmpty = false →
      s.studentId ∈ idsOf students := by
  have hnd : ((groupByDept students).map Prod.fst).Nodup :=
    groupByDept_keys_nodup students
  have hro : rosterDeptOK students (groupByDept students) :=
    fun d q x hm hx => groupByDept_mem students d q x hm hx
  have hinv : 0 + unassignedOf (groupByDept students) = students.length := by
    simp [unassignedOf, groupByDept_sum]
  obtain ⟨hkeys, hcnt, hids⟩ := rrFillGo_conservation students
    ((groupByDept students).map Prod.fst) room.columns hnd
    (snakeOrder room.rows room.columns) (groupByDept students) 0 0 rfl hro hinv
  have hperm := snakeOrder_perm room.rows room.columns
  have hknd : ((rrFillGo students ((groupByDept students).map Prod.fst) room.columns
      (snakeOrder room.rows room.columns) (groupByDept students) 0 0).map
        Prod.fst).Nodup := by
    rw [hkeys]
    exact hperm.nodup_iff.mpr (List.nodup_range _)
  have hklt : ∀ k ∈ (rrFillGo students ((groupByDept students).map Prod.fst)
      room.columns (snakeOrder room.rows room.columns) (groupByDept students) 0 0).map
        Prod.fst, k < room.rows * room.columns := by
    rw [hkeys]
    intro k hk
    exact List.mem_range.mp (hperm.mem_iff.mp hk)
  have hklen : ((rrFillGo students ((groupByDept students).map Prod.fst) room.columns
      (snakeOrder room.rows room.columns) (groupByDept students) 0 0).map
        Prod.fst).length = room.rows * room.columns := by
    rw [hkeys]
    exact hperm.length_eq.trans (List.length_range _)
  constructor
  · rw [randomSeatingB_eq, occupiedCount_mkGrid _ _ hknd hklt hklen, hcnt]
    have hslen : (snakeOrder room.rows room.columns).length
        = room.rows * room.columns :=
      hperm.length_eq.trans (List.length_range _)
    rw [hslen]
    have hu : unassignedOf (groupByDept students) = students.length := by omega
    rw [hu, Nat.min_comm]
  · intro s hs hocc
    rw [randomSeatingB_eq] at hs
    have hmem := (mkGrid_perm _ _ hknd hklt hklen).mem_iff.mp hs
    obtain ⟨w, hw, he⟩ := List.mem_map.mp hmem
    have := hids w hw (by rw [he]; exact hocc)
    rw [← he]
    exact this

/-! ### Column-Banded strategy: closed form and coverage -/

theorem fillColumn_eq (q : List Student) (cols j : Nat) :
    ∀ (c r cnt : Nat),
      fillColumn q cols j (List.range' r c) cnt
        = ((List.range' r c).map (fun i =>
            (i * cols + j,
             if cnt + (i - r) < q.length then
               (⟨i + 1, j + 1, (q.getD (cnt + (i - r)) student0).id, false⟩ : Seat)
             else ⟨i + 1, j + 1, "", true⟩)),
           max cnt (min (cnt + c) q.length)) := by
  intro c
  induction c with
  | zero =>
    intro r cnt
    have hm : max cnt (min (cnt + 0) q.length) = cnt := by omega
    simp only [List.range'_zero, List.map_nil, fillColumn, hm]
  | succ c ih =>
    intro r cnt
    rw [List.range'_succ]
    by_cases hlt : cnt < q.length
    · simp only [fillColumn, if_pos hlt, ih (r + 1) (cnt + 1), List.map_cons,
        Prod.mk.injEq]
      refine ⟨?_, by omega⟩
      congr 1
      · simp [hlt]
      · apply List.map_congr_left
        intro i hi
        have hge : r + 1 ≤ i := (List.mem_range'_1.mp hi).1
        have he : cnt + 1 + (i - (r + 1)) = cnt + (i - r) := by omega
        rw [he]
    · simp only [fillColumn, if_neg hlt, ih (r + 1) cnt, List.map_cons,
        Prod.mk.injEq]
      refine ⟨?_, by omega⟩
      congr 1
      · simp [hlt]
      · apply List.map_congr_left
        intro i hi
        rw [if_neg (by omega), if_neg (by omega)]

theorem fillColumn_keys (q : List Student) (cols j : Nat) :
    ∀ (is : List Nat) (cnt : Nat),
      (fillColumn q cols j is cnt).1.map Prod.fst = is.map (fun i => i * cols + j) := by
  intro is
  induction is with
  | nil => intro cnt; rfl
  | cons i is ih =>
    intro cnt
    by_cases hlt : cnt < q.length
    · simp only [fillColumn, if_pos hlt, List.map_cons, ih]
    · simp only [fillColumn, if_neg hlt, List.map_cons, ih]

theorem fillColumns_keys (m : List (String × List Student)) (depts : List String)
    (rows cols : Nat) :
    ∀ (js : List Nat) (counts : List (String × Nat)),
      (fillColumns m depts rows cols js counts).map Prod.fst
        = js.flatMap (fun j => (List.range rows).map (fun i => i * cols + j)) := by
  intro js
  induction js with
  | nil => intro counts; rfl
  | cons j js ih =>
    intro counts
    simp only [fillColumns, List.map_append, fillColumn_keys, ih,
      List.flatMap_cons]

theorem colOrder_nodup (rows cols : Nat) :
    ∀ js : List Nat, js.Nodup → (∀ j ∈ js, j < cols) →
      (js.flatMap (fun j => (List.range rows).map (fun i => i * cols + j))).Nodup := by
  intro js
  induction js with
  | nil =>
    intro _ _
    simp
  | cons j js' ih =>
    intro hnd hlt
    simp only [List.flatMap_cons]
    rw [List.nodup_append]
    simp only [List.nodup_cons] at hnd
    refine ⟨?_, ih hnd.2 (fun x hx => hlt x (List.mem_cons_of_mem _ hx)), ?_⟩
    · apply List.Nodup.map ?_ (List.nodup_range rows)
      intro a b hab
      simp only at hab
      have hc : 0 < cols :=
        Nat.lt_of_le_of_lt (Nat.zero_le j) (hlt j (List.mem_cons_self _ _))
      have h2 : a * cols = b * cols := Nat.add_right_cancel hab
      exact Nat.eq_of_mul_eq_mul_right hc h2
    · intro x hx1 hx2
      obtain ⟨i, _, he⟩ := List.mem_map.mp hx1
      obtain ⟨j2, hj2, hx2b⟩ := List.mem_flatMap.mp hx2
      obtain ⟨i2, _, he2⟩ := List.mem_map.mp hx2b
      have hj : j < cols := hlt j (List.mem_cons_self _ _)
      have hj2lt : j2 < cols := hlt j2 (List.mem_cons_of_mem _ hj2)
      have hjne : j ≠ j2 := fun e => hnd.1 (e ▸ hj2)
      have hm1 : x % cols = j := by
        rw [← he, Nat.mul_comm i cols, Nat.mul_add_mod, Nat.mod_eq_of_lt hj]
      have hm2 : x % cols = j2 := by
        rw [← he2, Nat.mul_comm i2 cols, Nat.mul_add_mod, Nat.mod_eq_of_lt hj2lt]
      exact hjne (hm1 ▸ hm2)

theorem sum_map_const_rows (l : List Nat) (rows : Nat) :
    (List.map (fun _ => rows) l).sum = l.length * rows := by
  induction l with
  | nil => simp
  | cons a t ih =>
    simp only [List.map_cons, List.sum_cons, ih, List.length_cons]
    ring

theorem colOrder_perm (rows cols : Nat) :
    ((List.range cols).flatMap
        (fun j => (List.range rows).map (fun i => i * cols + j))).Perm
      (List.range (rows * cols)) := by
  apply List.Subperm.perm_of_length_le
  · apply List.Nodup.subperm
    · exact colOrder_nodup rows cols (List.range cols) (List.nodup_range cols)
        (fun j hj => List.mem_range.mp hj)
    · intro x hx
      obtain ⟨j, hj, hxb⟩ := List.mem_flatMap.mp hx
      obtain ⟨i, hi, he⟩ := List.mem_map.mp hxb
      have hjc := List.mem_range.mp hj
      have hic := List.mem_range.mp hi
      apply List.mem_range.mpr
      subst he
      calc i * cols + j < i * cols + cols := by omega
        _ = (i + 1) * cols := by ring
        _ ≤ rows * cols := Nat.mul_le_mul_right cols hic
  · rw [List.length_range, List.length_flatMap]
    have hmap : (List.map (List.length ∘ fun j =>
        (List.range rows).map (fun i => i * cols + j)) (List.range cols))
        = List.map (fun _ => rows) (List.range cols) := by
      apply List.map_congr_left
      intro j _
      simp
    rw [hmap, sum_map_const_rows, List.length_range]
    exact Nat.le_of_eq (Nat.mul_comm rows cols)

theorem fillColumns_cell (m : List (String × List Student)) (depts : List String)
    (rows cols : Nat) :
    ∀ (js : List Nat) (counts : List (String × Nat)), ∀ j ∈ js, ∃ c0, ∀ i, i < rows →
      (i * cols + j,
        if c0 + i < (deptQueue m (depts.getD (j % depts.length) "")).length then
          (⟨i + 1, j + 1,
            ((deptQueue m (depts.getD (j % depts.length) "")).getD (c0 + i)
              student0).id, false⟩ : Seat)
        else ⟨i + 1, j + 1, "", true⟩) ∈ fillColumns m depts rows cols js counts := by
  intro js
  induction js with
  | nil =>
    intro counts j hj
    simp at hj
  | cons j0 js' ih =>
    intro counts j hj
    rcases List.mem_cons.mp hj with he | hmem
    · subst he
      refine ⟨getCount counts (depts.getD (j % depts.length) ""), ?_⟩
      intro i hi
      simp only [fillColumns]
      apply List.mem_append.mpr
      left
      rw [List.range_eq_range', fillColumn_eq]
      apply List.mem_map.mpr
      refine ⟨i, List.mem_range'_1.mpr ⟨Nat.zero_le i, by omega⟩, ?_⟩
      simp
    · obtain ⟨c0, hc0⟩ := ih
        (setCount counts (depts.getD (j0 % depts.length) "")
          (fillColumn (deptQueue m (depts.getD (j0 % depts.length) "")) cols j0
            (List.range rows)
            (getCount counts (depts.getD (j0 % depts.length) ""))).2) j hmem
      refine ⟨c0, ?_⟩
      intro i hi
      simp only [fillColumns]
      exact List.mem_append.mpr (Or.inr (hc0 i hi))

theorem deptQueue_sub (students : List Student) (m : List (String × List Student))
    (hro : rosterDeptOK students m) (d : String) :
    ∀ x ∈ deptQueue m d, x ∈ students := by
  intro x hx
  by_cases hne : deptQueue m d = []
  · rw [hne] at hx
    simp at hx
  · exact (hro d (deptQueue m d) x (deptQueue_ne_nil_mem m d hne) hx).1

theorem fillColumn_ids (q : List Student) (cols j : Nat) :
    ∀ (is : List Nat) (cnt : Nat) (w : Nat × Seat), w ∈ (fillColumn q cols j is cnt).1 →
      w.2.isEmpty = false → w.2.studentId ∈ q.map (fun s => s.id) := by
  intro is
  induction is with
  | nil =>
    intro cnt w hw
    simp [fillColumn] at hw
  | cons i is ih =>
    intro cnt w hw hocc
    by_cases hlt : cnt < q.length
    · simp only [fillColumn, if_pos hlt] at hw
      rcases List.mem_cons.mp hw with he | hmem
      · rw [he]
        apply List.mem_map.mpr
        refine ⟨q.getD cnt student0, ?_, rfl⟩
        rw [List.getD_eq_getElem _ _ hlt]
        exact List.getElem_mem _
      · exact ih (cnt + 1) w hmem hocc
    · simp only [fillColumn, if_neg hlt] at hw
      rcases List.mem_cons.mp hw with he | hmem
      · rw [he] at hocc
        simp at hocc
      · exact ih cnt w hmem hocc

theorem fillColumns_ids (students : List Student) (m : List (String × List Student))
    (depts : List String) (rows cols : Nat) (hro : rosterDeptOK students m) :
    ∀ (js : List Nat) (counts : List (String × Nat)) (w : Nat × Seat),
      w ∈ fillColumns m depts rows cols js counts →
      w.2.isEmpty = false → w.2.studentId ∈ idsOf students := by
  intro js
  induction js with
  | nil =>
    intro counts w hw
    simp [fillColumns] at hw
  | cons j js ih =>
    intro counts w hw hocc
    simp only [fillColumns] at hw
    rcases List.mem_append.mp hw with h1 | h2
    · have h3 := fillColumn_ids _ cols j _ _ w h1 hocc
      obtain ⟨x, hx, he⟩ := List.mem_map.mp h3
      have hxs := deptQueue_sub students m hro _ x hx
      rw [← he]
      exact List.mem_map.mpr ⟨x, hxs, rfl⟩
    · exact ih _ w h2 hocc

theorem parallelGrid_eq (room : Room) (students : List Student)
    (h : ¬(room.columns ≠ 0 ∧ ((groupByDept students).map Prod.fst).isEmpty)) :
    parallelGrid room students = mkGrid (room.rows * room.columns)
      (fillColumns (groupByDept students) ((groupByDept students).map Prod.fst)
        room.rows room.columns (List.range room.columns) []) := by
  rw [parallelGrid, parallelSeating]
  simp only [if_neg h]
  rfl

theorem parallelGrid_ids (room : Room) (students : List Student) :
    ∀ s ∈ parallelGrid room students, s.isEmpty = false →
      s.studentId ∈ idsOf students := by
  have hro : rosterDeptOK students (groupByDept students) :=
    fun d q x hm hx => groupByDept_mem students d q x hm hx
  by_cases hguard : room.columns ≠ 0 ∧ ((groupByDept students).map Prod.fst).isEmpty
  · intro s hs
    rw [parallelGrid, parallelSeating] at hs
    simp only [if_pos hguard] at hs
    simp at hs
  · intro s hs hocc
    rw [parallelGrid_eq room students hguard] at hs
    have hkeys := fillColumns_keys (groupByDept students)
      ((groupByDept students).map Prod.fst) room.rows room.columns
      (List.range room.columns) []
    have hperm := colOrder_perm room.rows room.columns
    have hknd : ((fillColumns (groupByDept students)
        ((groupByDept students).map Prod.fst) room.rows room.columns
        (List.range room.columns) []).map Prod.fst).Nodup := by
      rw [hkeys]
      exact hperm.nodup_iff.mpr (List.nodup_range _)
    have hklt : ∀ k ∈ (fillColumns (groupByDept students)
        ((groupByDept students).map Prod.fst) room.rows room.columns
        (List.range room.columns) []).map Prod.fst, k < room.rows * room.columns := by
      rw [hkeys]
      intro k hk
      exact List.mem_range.mp (hperm.mem_iff.mp hk)
    have hklen : ((fillColumns (groupByDept students)
        ((groupByDept students).map Prod.fst) room.rows room.columns
        (List.range room.columns) []).map Prod.fst).length
        = room.rows * room.columns := by
      rw [hkeys]
      exact hperm.length_eq.trans (List.length_range _)
    have hmem := (mkGrid_perm _ _ hknd hklt hklen).mem_iff.mp hs
    obtain ⟨w, hw, he⟩ := List.mem_map.mp hmem
    have := fillColumns_ids students (groupByDept students)
      ((groupByDept students).map Prod.fst) room.rows room.columns hro
      (List.range room.columns) [] w hw (by rw [he]; exact hocc)
    rw [← he]
    exact this

theorem fillColumns_keys_nodup (room : Room) (students : List Student) :
    ((fillColumns (groupByDept students) ((groupByDept students).map Prod.fst)
        room.rows room.columns (List.range room.columns) []).map Prod.fst).Nodup := by
  rw [fillColumns_keys]
  exact (colOrder_perm room.rows room.columns).nodup_iff.mpr (List.nodup_range _)

/-- The column the strategy assigns to grid column j (0-based):
depts[j mod len(depts)] in first-seen order. -/
def colDeptOf (students : List Student) (j : Nat) : String :=
  (deptsOf students).getD (j % (deptsOf students).length) ""

def queueOf (students : List Student) (d : String) : List Student :=
  deptQueue (groupByDept students) d

theorem parallel_cell (room : Room) (students : List Student) (h : students ≠ []) :
    ∀ j, j < room.columns → ∃ c0, ∀ i, i < room.rows →
      (parallelGrid room students).getD (i * room.columns + j) seat0
        = if c0 + i < (queueOf students (colDeptOf students j)).length then
            (⟨i + 1, j + 1, ((queueOf students (colDeptOf students j)).getD (c0 + i)
              student0).id, false⟩ : Seat)
          else ⟨i + 1, j + 1, "", true⟩ := by
  intro j hj
  have hguard : ¬(room.columns ≠ 0 ∧ ((groupByDept students).map Prod.fst).isEmpty) := by
    intro hand
    have hm : groupByDept students = [] := by
      have h2 := List.isEmpty_iff.mp hand.2
      exact List.map_eq_nil_iff.mp h2
    exact groupByDept_ne_nil students h hm
  obtain ⟨c0, hc0⟩ := fillColumns_cell (groupByDept students)
    ((groupByDept students).map Prod.fst) room.rows room.columns
    (List.range room.columns) [] j (List.mem_range.mpr hj)
  refine ⟨c0, ?_⟩
  intro i hi
  rw [parallelGrid_eq room students hguard]
  apply mkGrid_getD_of_mem
  · exact fillColumns_keys_nodup room students
  · exact hc0 i hi
  · calc i * room.columns + j < i * room.columns + room.columns := by omega
      _ = (i + 1) * room.columns := by ring
      _ ≤ room.rows * room.columns := Nat.mul_le_mul_right _ hi

def roomC7 : Room := ⟨"c7", 2, 2, 4⟩

def rosterC7 : List Student :=
  [⟨"A1", "A1", "deptX", ""⟩, ⟨"A2", "A2", "deptX", ""⟩, ⟨"A3", "A3", "deptY", ""⟩]

def gridC7 : List Seat :=
  [⟨1, 1, "A1", false⟩, ⟨1, 2, "A3", false⟩, ⟨2, 1, "A2", false⟩, ⟨2, 2, "", true⟩]

/-- C7: for the Column-Banded strategy on a non-empty roster, grid
column j (0-based) is assigned the first-seen group
depts[j mod len(depts)]; every occupied seat of the column carries its
row-major coordinates and a member of that group queue, and once a cell
of the column is empty every lower cell of the column is empty; on the
2-by-2 scenario room with rosters A1,A2 in deptX and A3 in deptY the
grid is (1,1)=A1, (2,1)=A2, (1,2)=A3, (2,2)=empty. -/
theorem parallel_column_banded (room : Room) (students : List Student)
    (h : students ≠ []) :
    (∀ j, j < room.columns → ∀ i, i < room.rows →
      (((parallelGrid room students).getD (i * room.columns + j) seat0).row = i + 1 ∧
       ((parallelGrid room students).getD (i * room.columns + j) seat0).column = j + 1) ∧
      (((parallelGrid room students).getD (i * room.columns + j) seat0).isEmpty = false →
        ((parallelGrid room students).getD (i * room.columns + j) seat0).studentId
          ∈ idsOf (queueOf students (colDeptOf students j))) ∧
      (((parallelGrid room students).getD (i * room.columns + j) seat0).isEmpty = true →
        ∀ i2, i ≤ i2 → i2 < room.rows →
          ((parallelGrid room students).getD (i2 * room.columns + j) seat0).isEmpty
            = true)) ∧
    parallelGrid roomC7 rosterC7 = gridC7 := by
  constructor
  · intro j hj
    obtain ⟨c0, hc0⟩ := parallel_cell room students h j hj
    intro i hi
    by_cases hcond : c0 + i < (queueOf students (colDeptOf students j)).length
    · rw [hc0 i hi, if_pos hcond]
      refine ⟨⟨rfl, rfl⟩, ?_, ?_⟩
      · intro _
        apply List.mem_map.mpr
        refine ⟨_, ?_, rfl⟩
        rw [List.getD_eq_getElem _ _ hcond]
        exact List.getElem_mem _
      · intro habs
        simp at habs
    · rw [hc0 i hi, if_neg hcond]
      refine ⟨⟨rfl, rfl⟩, ?_, ?_⟩
      · intro habs
        simp at habs
      · intro _ i2 hle hi2
        rw [hc0 i2 hi2, if_neg (by omega)]
  · rfl

/-- Witness for C7 at the spec scenario. -/
theorem parallel_column_banded_witness :
    rosterC7 ≠ [] ∧ parallelGrid roomC7 rosterC7 = gridC7 :=
  ⟨by decide, (parallel_column_banded roomC7 rosterC7 (by decide)).2⟩

def roomC6 : Room := ⟨"c6", 2, 1, 2⟩

def rosterC6 : List Student := [⟨"A1", "A1", "dX", ""⟩, ⟨"A2", "A2", "dY", ""⟩]

/-- C6 (amended): the Serpentine-Interleaved strategy occupies exactly
min(len(roster), rows*columns) seats and every occupied seat carries a
roster id; the Column-Banded strategy draws every occupied seat from
the roster, but its occupied-seat count can fall short of
min(len(roster), rows*columns) when a column group runs out. -/
theorem conservation_amended (room : Room) (students : List Student) :
    occupiedCount (randomSeatingB room students)
      = min students.length (room.rows * room.columns) ∧
    (∀ s ∈ randomSeatingB room students, s.isEmpty = false →
      s.studentId ∈ idsOf students) ∧
    (∀ s ∈ parallelGrid room students, s.isEmpty = false →
      s.studentId ∈ idsOf students) :=
  ⟨(randomSeatingB_conservation room students).1,
   (randomSeatingB_conservation room students).2,
   parallelGrid_ids room students⟩

/-- C6 counterexample: a 2-by-1 room with one deptX and one deptY
student seats only one of them under Column-Banded (the single column
is assigned deptX and deptY is never drawn), so occupiedSeats = 1 while
min(len(roster), rows*columns) = 2. -/
theorem parallel_conservation_fails :
    occupiedCount (parallelGrid roomC6 rosterC6) = 1 ∧
    min rosterC6.length (roomC6.rows * roomC6.columns) = 2 := by
  constructor
  · rfl
  · rfl

/-! ### Plan assembler: gathering, capacity check, dispatch -/

theorem forall2_mem_left {α β : Type} {R : α → β → Prop} :
    ∀ {l1 : List α} {l2 : List β}, List.Forall₂ R l1 l2 →
      ∀ a ∈ l1, ∃ b, b ∈ l2 ∧ R a b := by
  intro l1 l2 h
  induction h with
  | nil =>
    intro a ha
    simp at ha
  | @cons x y l1t l2t hr _ ih2 =>
    intro a ha
    rcases List.mem_cons.mp ha with he | hm
    · subst he
      exact ⟨y, List.mem_cons_self _ _, hr⟩
    · obtain ⟨b, hb, hrb⟩ := ih2 a hm
      exact ⟨b, List.mem_cons_of_mem _ hb, hrb⟩

theorem gatherGo_spec :
    ∀ (rooms : List (Room × List Student)) (assigned : List String),
      List.Forall₂ (fun (roster : List Student) (p : Room × List Student) =>
        roster.length ≤ p.1.capacity ∧
        ∀ s ∈ roster, s ∈ p.2 ∧ s.id ≠ "" ∧ s.id ∉ assigned)
        (gatherGo assigned rooms) rooms ∧
      List.Pairwise (fun r1 r2 : List Student =>
        ∀ s1 ∈ r1, ∀ s2 ∈ r2, s1.id ≠ s2.id) (gatherGo assigned rooms) := by
  intro rooms
  induction rooms with
  | nil =>
    intro assigned
    exact ⟨List.Forall₂.nil, List.Pairwise.nil⟩
  | cons p rest ih =>
    intro assigned
    obtain ⟨room, list⟩ := p
    have hmem : ∀ s ∈ (list.filter
        (fun s => s.id != "" && !(assigned.contains s.id))).take room.capacity,
        s ∈ list ∧ s.id ≠ "" ∧ s.id ∉ assigned := by
      intro s hs
      have hs2 := List.take_subset _ _ hs
      obtain ⟨hsl, hpred⟩ := List.mem_filter.mp hs2
      simp only [Bool.and_eq_true] at hpred
      refine ⟨hsl, by simpa using hpred.1, by simpa using hpred.2⟩
    obtain ⟨ihf, ihp⟩ := ih (assigned ++
      ((list.filter (fun s => s.id != "" && !(assigned.contains s.id))).take
        room.capacity).map (fun s => s.id))
    constructor
    · refine List.Forall₂.cons ⟨List.length_take_le _ _, hmem⟩ ?_
      refine ihf.imp ?_
      intro a b hab
      refine ⟨hab.1, fun s hs => ?_⟩
      obtain ⟨h1, h2, h3⟩ := hab.2 s hs
      exact ⟨h1, h2, fun hc => h3 (List.mem_append.mpr (Or.inl hc))⟩
    · refine List.Pairwise.cons ?_ ihp
      intro r2 hr2 s1 hs1 s2 hs2 heq
      obtain ⟨b, _, hprop⟩ := forall2_mem_left ihf r2 hr2
      have h3 := (hprop.2 s2 hs2).2.2
      apply h3
      apply List.mem_append.mpr
      right
      rw [← heq]
      exact List.mem_map.mpr ⟨s1, hs1, rfl⟩

/-- C9 (amended): the roster handed to each room strategy is the
caller-supplied roster filtered of empty ids and of ids already
assigned to an earlier room, then truncated to the room capacity; so
each gathered roster fits its room capacity, draws only from the
caller-supplied students with non-empty ids, and no id reaches two
different rooms. -/
theorem gather_characterization (rooms : List (Room × List Student)) :
    List.Forall₂ (fun (roster : List Student) (p : Room × List Student) =>
      roster.length ≤ p.1.capacity ∧ ∀ s ∈ roster, s ∈ p.2 ∧ s.id ≠ "")
      (gatherRosters rooms) rooms ∧
    List.Pairwise (fun r1 r2 : List Student =>
      ∀ s1 ∈ r1, ∀ s2 ∈ r2, s1.id ≠ s2.id) (gatherRosters rooms) := by
  obtain ⟨hf, hp⟩ := gatherGo_spec rooms []
  refine ⟨?_, hp⟩
  refine hf.imp ?_
  intro a b hab
  exact ⟨hab.1, fun s hs => ⟨(hab.2 s hs).1, (hab.2 s hs).2.1⟩⟩

theorem sum_le_of_forall2 :
    ∀ {rosters : List (List Student)} {rooms : List (Room × List Student)},
      List.Forall₂ (fun (roster : List Student) (p : Room × List Student) =>
        roster.length ≤ p.1.capacity) rosters rooms →
      (rosters.map List.length).sum ≤ (rooms.map (fun p => p.1.capacity)).sum := by
  intro rosters rooms h
  induction h with
  | nil => simp
  | @cons x y l1t l2t hr _ ih2 =>
    simp only [List.map_cons, List.sum_cons]
    omega

theorem gather_sum_le (rooms : List (Room × List Student)) :
    ((gatherRosters rooms).map List.length).sum
      ≤ (rooms.map (fun p => p.1.capacity)).sum :=
  sum_le_of_forall2 (((gatherGo_spec rooms []).1).imp (fun _ _ hab => hab.1))

theorem gatherGo_length (rooms : List (Room × List Student)) :
    ∀ assigned, (gatherGo assigned rooms).length = rooms.length := by
  induction rooms with
  | nil => intro assigned; rfl
  | cons p rest ih =>
    intro assigned
    obtain ⟨room, list⟩ := p
    simp only [gatherGo, List.length_cons, ih]

def knownAlgs : List String := ["matrix", "parallel", "random", "snake"]

theorem roomSeats_error (shuffle : List Student → List Student) (alg : String)
    (room : Room) (roster : List Student) (e : String)
    (h : roomSeats shuffle alg room roster = .error e) :
    e = invalidAlgMsg ∨ e = panicMsg := by
  rw [roomSeats] at h
  by_cases h0 : roster.isEmpty
  · rw [if_pos h0] at h
    exact Except.noConfusion h
  · rw [if_neg h0] at h
    by_cases h1 : alg = "matrix"
    · rw [if_pos h1] at h
      exact Except.noConfusion h
    · rw [if_neg h1] at h
      by_cases h2 : alg = "parallel"
      · rw [if_pos h2] at h
        cases hps : parallelSeating room roster with
        | some g =>
          rw [hps] at h
          exact Except.noConfusion h
        | none =>
          rw [hps] at h
          exact Or.inr (Except.error.inj h).symm
      · rw [if_neg h2] at h
        by_cases h3 : alg = "random"
        · rw [if_pos h3] at h
          exact Except.noConfusion h
        · rw [if_neg h3] at h
          by_cases h4 : alg = "snake"
          · rw [if_pos h4] at h
            exact Except.noConfusion h
          · rw [if_neg h4] at h
            exact Or.inl (Except.error.inj h).symm

theorem buildRooms_errors (shuffle : List Student → List Student) (alg : String) :
    ∀ (rooms : List (Room × List Student)) (rosters : List (List Student)) (e : String),
      buildRooms shuffle alg rooms rosters = .error e →
      e = invalidAlgMsg ∨ e = panicMsg := by
  intro rooms
  induction rooms with
  | nil =>
    intro rosters e h
    exact Except.noConfusion h
  | cons p rest ih =>
    intro rosters e h
    cases rosters with
    | nil => exact Except.noConfusion h
    | cons r rrest =>
      obtain ⟨room, list⟩ := p
      simp only [buildRooms] at h
      cases hrs : roomSeats shuffle alg room r with
      | error e2 =>
        rw [hrs] at h
        simp only at h
        have he2 := Except.error.inj h
        rw [← he2]
        exact roomSeats_error shuffle alg room r e2 hrs
      | ok seats =>
        rw [hrs] at h
        simp only at h
        cases hbr : buildRooms shuffle alg rest rrest with
        | error e3 =>
          rw [hbr] at h
          simp only at h
          have he3 := Except.error.inj h
          rw [← he3]
          exact ih rrest e3 hbr
        | ok prs =>
          rw [hbr] at h
          exact Except.noConfusion h

/-- C1 (amended): the gathered rosters are truncated to each room
capacity before the total-capacity comparison, so total demand never
exceeds total supply at the check and the CapacityExceeded error is
unreachable for every input and algorithm. -/
theorem capacityError_unreachable (shuffle : List Student → List Student)
    (rooms : List (Room × List Student)) (alg : String) :
    assemblePlan shuffle rooms alg ≠ .error capacityMsg := by
  intro h
  have hle := gather_sum_le rooms
  simp only [assemblePlan] at h
  rw [if_neg (by omega)] at h
  rcases buildRooms_errors shuffle alg rooms (gatherRosters rooms) capacityMsg h with
    he | he
  · exact absurd he (by decide)
  · exact absurd he (by decide)

def emptyPlanRooms (rooms : List (Room × List Student)) : List PlanRoom :=
  rooms.map (fun p => ⟨p.1.roomId, p.1.capacity, p.1.rows, p.1.columns,
    emptyGrid p.1.rows p.1.columns⟩)

theorem roomSeats_unknown (shuffle : List Student → List Student) (alg : String)
    (room : Room) (roster : List Student) (h : alg ∉ knownAlgs)
    (hne : roster.isEmpty = false) :
    roomSeats shuffle alg room roster = .error invalidAlgMsg := by
  simp only [knownAlgs, List.mem_cons, not_or, List.not_mem_nil] at h
  rw [roomSeats, if_neg (by simp [hne]), if_neg h.1, if_neg h.2.1, if_neg h.2.2.1,
    if_neg h.2.2.2.1]

theorem buildRooms_unknown (shuffle : List Student → List Student) (alg : String)
    (h : alg ∉ knownAlgs) :
    ∀ (rooms : List (Room × List Student)) (rosters : List (List Student)),
      rosters.length = rooms.length →
      (buildRooms shuffle alg rooms rosters = .error invalidAlgMsg ↔
        ∃ r ∈ rosters, r ≠ []) ∧
      ((∀ r ∈ rosters, r = []) →
        buildRooms shuffle alg rooms rosters = .ok (emptyPlanRooms rooms)) := by
  intro rooms
  induction rooms with
  | nil =>
    intro rosters hlen
    have he : rosters = [] := List.eq_nil_of_length_eq_zero (by simpa using hlen)
    subst he
    refine ⟨⟨fun hh => Except.noConfusion hh, ?_⟩, fun _ => rfl⟩
    rintro ⟨r, hr, _⟩
    simp at hr
  | cons p rest ih =>
    intro rosters hlen
    cases rosters with
    | nil => simp at hlen
    | cons r rrest =>
      obtain ⟨room, list⟩ := p
      have hlen2 : rrest.length = rest.length := by simpa using hlen
      obtain ⟨ihiff, ihok⟩ := ih rrest hlen2
      by_cases hre : r.isEmpty
      · have hr0 : r = [] := List.isEmpty_iff.mp hre
        have hrs : roomSeats shuffle alg room r
            = .ok (emptyGrid room.rows room.columns) := by
          rw [roomSeats, if_pos hre]
        constructor
        · constructor
          · intro hh
            simp only [buildRooms, hrs] at hh
            cases hbr : buildRooms shuffle alg rest rrest with
            | error e3 =>
              rw [hbr] at hh
              simp only at hh
              have := Except.error.inj hh
              obtain ⟨r2, hr2, hr2ne⟩ := ihiff.mp (by rw [hbr, this])
              exact ⟨r2, List.mem_cons_of_mem _ hr2, hr2ne⟩
            | ok prs =>
              rw [hbr] at hh
              exact Except.noConfusion hh
          · rintro ⟨r2, hr2, hr2ne⟩
            rcases List.mem_cons.mp hr2 with he | hm
            · exact absurd (he ▸ hr0) hr2ne
            · have hbr := ihiff.mpr ⟨r2, hm, hr2ne⟩
              simp only [buildRooms, hrs, hbr]
        · intro hall
          have hbr := ihok (fun r2 hr2 => hall r2 (List.mem_cons_of_mem _ hr2))
          simp only [buildRooms, hrs, hbr, emptyPlanRooms, List.map_cons]
      · have hne : r ≠ [] := by
          intro he
          rw [he] at hre
          simp at hre
        have hrs := roomSeats_unknown shuffle alg room r h
          (by cases hb : r.isEmpty with
            | true => exact absurd hb hre
            | false => rfl)
        constructor
        · constructor
          · intro _
            exact ⟨r, List.mem_cons_self _ _, hne⟩
          · intro _
            simp only [buildRooms, hrs]
        · intro hall
          exact absurd (hall r (List.mem_cons_self _ _)) hne

/-- C8 (amended): with a selector outside the accepted set, the plan
assembler fails with InvalidAlgorithm exactly when some room has a
non-empty gathered roster; when every gathered roster is empty the
unknown selector is accepted, no strategy runs, and a plan of all-empty
grids is produced. -/
theorem invalid_algorithm_iff (shuffle : List Student → List Student)
    (rooms : List (Room × List Student)) (alg : String) (h : alg ∉ knownAlgs) :
    (assemblePlan shuffle rooms alg = .error invalidAlgMsg ↔
      ∃ r ∈ gatherRosters rooms, r ≠ []) ∧
    ((∀ r ∈ gatherRosters rooms, r = []) →
      assemblePlan shuffle rooms alg = .ok (emptyPlanRooms rooms)) := by
  have hle := gather_sum_le rooms
  have hlen : (gatherRosters rooms).length = rooms.length := gatherGo_length rooms []
  obtain ⟨hiff, hok⟩ := buildRooms_unknown shuffle alg h rooms (gatherRosters rooms) hlen
  constructor
  · rw [← hiff]
    simp only [assemblePlan]
    rw [if_neg (by omega)]
  · intro hall
    simp only [assemblePlan]
    rw [if_neg (by omega)]
    exact hok hall

def roomsC8 : List (Room × List Student) := [(⟨"r1", 1, 2, 2⟩, [])]

/-- C8 counterexample: an unknown selector with a room whose roster is
empty does not fail; the assembler accepts it and produces a plan with
an all-empty grid. -/
theorem invalid_alg_empty_rosters_ok :
    assemblePlan idShuffle roomsC8 "bogus"
      = .ok [⟨"r1", 2, 1, 2, [⟨1, 1, "", true⟩, ⟨1, 2, "", true⟩]⟩] := rfl

/-- Witness for C8 (amended) at the unknown selector "bogus". -/
theorem invalid_algorithm_iff_witness :
    "bogus" ∉ knownAlgs ∧
    assemblePlan idShuffle roomsC8 "bogus" = .ok (emptyPlanRooms roomsC8) :=
  ⟨by decide,
    (invalid_algorithm_iff idShuffle roomsC8 "bogus" (by decide)).2 (by decide)⟩

def roomsC1 : List (Room × List Student) :=
  [(⟨"r1", 1, 2, 2⟩,
    [⟨"s1", "s1", "dX", ""⟩, ⟨"s2", "s2", "dX", ""⟩, ⟨"s3", "s3", "dX", ""⟩])]

/-- C1 counterexample: one room of capacity 2 with a caller roster of 3
candidates does not fail with CapacityExceeded; the roster is truncated
to 2 before the check, the strategy runs, and a plan seating the first
2 candidates is produced. -/
theorem capacity_scenario_produces_plan :
    assemblePlan idShuffle roomsC1 "parallel"
      = .ok [⟨"r1", 2, 1, 2, [⟨1, 1, "s1", false⟩, ⟨1, 2, "s2", false⟩]⟩] := rfl

def roomC9 : Room := ⟨"r1", 1, 2, 1⟩

def rosterC9full : List Student := [⟨"A1", "A1", "dX", ""⟩, ⟨"A2", "A2", "dX", ""⟩]

def roomsC9 : List (Room × List Student) := [(roomC9, rosterC9full)]

/-- C9 counterexample: a room with capacity 1, two grid seats and a
caller roster of two students; the plan seats only A1 at (1,1) with
(1,2) empty, while the Column-Banded strategy applied to the unmodified
caller roster would seat both A1 and A2 — so the roster handed to the
strategy was cut to the room capacity, contradicting the claim. -/
theorem roster_truncated_counterexample :
    assemblePlan idShuffle roomsC9 "parallel"
      = .ok [⟨"r1", 1, 1, 2, [⟨1, 1, "A1", false⟩, ⟨1, 2, "", true⟩]⟩] ∧
    (parallelSeating roomC9 rosterC9full).getD []
      = [⟨1, 1, "A1", false⟩, ⟨1, 2, "A2", false⟩] ∧
    ([⟨1, 1, "A1", false⟩, ⟨1, 2, "", true⟩] : List Seat)
      ≠ [⟨1, 1, "A1", false⟩, ⟨1, 2, "A2", false⟩] := by
  refine ⟨rfl, rfl, by decide⟩

/-- C10: with a non-empty roster the first-seen department list is
non-empty, so the Column-Banded column assignment
depts[i mod len(depts)] never divides by zero or indexes out of range
(the Option-modelled strategy returns some grid), and the assembler
itself emits the all-empty grid for a room with an empty roster without
invoking any strategy, whatever the selector. -/
theorem parallel_safety (room : Room) (students : List Student) (alg : String)
    (shuffle : List Student → List Student) :
    (students ≠ [] →
      deptsOf students ≠ [] ∧ (parallelSeating room students).isSome = true) ∧
    roomSeats shuffle alg room [] = .ok (emptyGrid room.rows room.columns) := by
  constructor
  · intro h
    have hm := groupByDept_ne_nil students h
    have hd : deptsOf students ≠ [] := by
      rw [deptsOf]
      intro e
      exact hm (List.map_eq_nil_iff.mp e)
    refine ⟨hd, ?_⟩
    rw [parallelSeating]
    have hguard : ¬(room.columns ≠ 0 ∧
        ((groupByDept students).map Prod.fst).isEmpty) := by
      intro hand
      exact hd (by rw [deptsOf]; exact List.isEmpty_iff.mp hand.2)
    rw [if_neg hguard]
    rfl
  · rfl

/-- Witness for C10 at a concrete two-student roster and the unknown
selector "bogus". -/
theorem parallel_safety_witness :
    rosterAB ≠ [] ∧ deptsOf rosterAB ≠ [] ∧
    (parallelSeating roomW12 rosterAB).isSome = true ∧
    roomSeats idShuffle "bogus" roomW12 []
      = .ok (emptyGrid roomW12.rows roomW12.columns) := by
  have h := parallel_safety roomW12 rosterAB "bogus" idShuffle
  exact ⟨by decide, (h.1 (by decide)).1, (h.1 (by decide)).2, h.2⟩

def room2x3 : Room := ⟨"c2", 2, 3, 6⟩

def roster4 : List Student :=
  [⟨"s1", "s1", "d", ""⟩, ⟨"s2", "s2", "d", ""⟩, ⟨"s3", "s3", "d", ""⟩,
   ⟨"s4", "s4", "d", ""⟩]

def snakeABugGrid : List Seat :=
  [⟨1, 1, "s1", false⟩, ⟨1, 2, "s2", false⟩, ⟨1, 3, "s3", false⟩,
   ⟨0, 0, "", false⟩, ⟨2, 2, "", true⟩, ⟨2, 3, "", true⟩]

/-- C2: evaluation of revision A generateSnakeSeating at the failing
input (2-by-3 room, 4 same-department students).  The snake fill writes
the fourth student at array index 5, the mark-remaining loop then runs
over indices 4 and 5 and overwrites that seat with an empty one, and
index 3 keeps the Go zero-value seat: the grid has no seat with
coordinates (2,1), carries a bogus (0,0) seat flagged non-empty, and
loses the fourth student, violating the coverage and row-major claim. -/
theorem snakeA_coverage_bug :
    snakeSeatingA room2x3 roster4 = snakeABugGrid ∧
    (snakeABugGrid.getD 3 seat0).row = 0 ∧
    ∀ s ∈ snakeABugGrid, s.studentId ≠ "s4" := by
  refine ⟨rfl, rfl, by decide⟩

/-- Witness for C1 at a concrete over-capacity call. -/
theorem capacityError_unreachable_witness :
    assemblePlan idShuffle roomsC1 "parallel" ≠ .error capacityMsg :=
  capacityError_unreachable idShuffle roomsC1 "parallel"

/-- Witness for C2: the bogus zero-value seat and the dropped fourth
student at the failing input. -/
theorem snakeA_coverage_bug_witness :
    (snakeABugGrid.getD 3 seat0).row = 0 ∧
    ((⟨1, 1, "s1", false⟩ : Seat) ∈ snakeABugGrid ∧
      (⟨1, 1, "s1", false⟩ : Seat).studentId ≠ "s4") :=
  ⟨(snakeA_coverage_bug).2.1,
    by decide, (snakeA_coverage_bug).2.2 ⟨1, 1, "s1", false⟩ (by decide)⟩

/-- Witness for C6 (amended) at a concrete room and roster. -/
theorem conservation_amended_witness :
    occupiedCount (randomSeatingB roomC6 rosterC6)
      = min rosterC6.length (roomC6.rows * roomC6.columns) ∧
    (⟨1, 1, "A1", false⟩ : Seat).studentId ∈ idsOf rosterC6 :=
  ⟨(conservation_amended roomC6 rosterC6).1,
    (conservation_amended roomC6 rosterC6).2.1 ⟨1, 1, "A1", false⟩ (by decide) rfl⟩

/-- Witness for C9 (amended) at a concrete one-room input. -/
theorem gather_characterization_witness :
    List.Forall₂ (fun (roster : List Student) (p : Room × List Student) =>
      roster.length ≤ p.1.capacity ∧ ∀ s ∈ roster, s ∈ p.2 ∧ s.id ≠ "")
      (gatherRosters roomsC9) roomsC9 ∧
    List.Pairwise (fun r1 r2 : List Student =>
      ∀ s1 ∈ r1, ∀ s2 ∈ r2, s1.id ≠ s2.id) (gatherRosters roomsC9) :=
  gather_characterization roomsC9
